import Mathlib

/-!
# Verification of the libgiddy lane-group primitives and the RPE decompression engine

This file gives a shallow embedding, in Lean 4, of the CUDA warp-level collective
primitives (src/unnamed/part_000, `cuda::primitives::warp`) and of the
Run-Position-Encoding decompression kernel (src/unnamed/part_001,
`cuda::kernels::decompression::run_position_encoding`), together with theorems
checking the natural-language specification against that code.

Modelling conventions:
* a lane-group (warp) has width 32, as in the source (`warp_size`);
* machine unsigned values are modelled as `Nat`; the modelled code only moves,
  compares and adds values in ranges where no overflow occurs;
* predicate broadcast (`warp_ballot`) results are 32-bit masks with bit `i`
  holding lane `i`'s predicate, as produced by the hardware instruction;
* divergence is modelled with an explicit active-lane mask, and an operation
  whose result on real hardware is undefined (a shuffle read from an inactive
  lane) is given the value `none` of an `Option`.
-/

set_option maxHeartbeats 1000000

namespace Giddy

/-- Modelled from the spec: `builtins::population_count` (builtins.cuh is not under
src/). Standard population count of a 32-bit value. -/
def popcount32 (m : Nat) : Nat :=
  ((List.range 32).filter (fun i => m.testBit i)).length

/-- Modelled from the spec: `builtins::count_leading_zeros` (builtins.cuh is not under
src/), the `__clz` instruction: the number of zero bits above the most significant set
bit of the 32-bit value; 32 when the value is 0. -/
def count_leading_zeros (m : Nat) : Nat :=
  (List.range 32).findIdx (fun i => m.testBit (31 - i))

/-- Modelled from the spec: `count_trailing_zeros` (bit_operations.cuh is not under
src/): the index of the least significant set bit of the 32-bit value; 32 when the
value is 0. -/
def count_trailing_zeros (m : Nat) : Nat :=
  (List.range 32).findIdx (fun i => m.testBit i)

/-- From `detail::select_leader_lane<PreferFirstLane>` (part_000, lines 548-559):
`PreferFirstLane ? count_leading_zeros(mask) : count_trailing_zeros(mask)`. -/
def select_leader_lane (preferFirstLane : Bool) (active_lanes_mask : Nat) : Nat :=
  if preferFirstLane then count_leading_zeros active_lanes_mask
  else count_trailing_zeros active_lanes_mask

/-- From `detail::lane_index_among_active_lanes` (part_000, lines 568-573). The body
computes `population_count((1 << laneid) - 1)`, ignoring its mask argument, but the
declared return type of the C++ function is `bool`, so the computed count is truncated
to 0/1 on return. -/
def lane_index_among_active_lanes (active_lanes_mask laneid : Nat) : Bool :=
  popcount32 (2 ^ laneid - 1) != 0

/-- From `warp::lane_index_among_active_lanes` (part_000, lines 616-619): returns the
detail function's `bool` result converted back to `unsigned`. -/
def warp_lane_index_among_active_lanes (active_lanes_mask laneid : Nat) : Nat :=
  if lane_index_among_active_lanes active_lanes_mask laneid then 1 else 0

/-- From `active_lanes_increment` (part_000, lines 642-657): resulting counter value.
The designated computing lane is `detail::select_leader_lane(lanes_mask)`
(`PreferFirstLane = true`); inside `have_a_single_lane_compute` (lines 215-222) only
the lane whose index equals the designated lane runs the atomic add, so if the
designated index is not an active lane the add never executes. -/
def active_lanes_increment_counter (active_lanes_mask c : Nat) : Nat :=
  let leader := select_leader_lane true active_lanes_mask
  if active_lanes_mask.testBit leader then c + popcount32 active_lanes_mask else c

/-- From `active_lanes_increment` (part_000, lines 642-657): value returned to an
active lane `laneid`, namely the broadcast pre-increment counter value plus
`detail::lane_index_among_active_lanes(lanes_mask)` (truncated to 0/1 by its `bool`
return type). When the designated leader index is not an active lane the broadcast
reads an inactive lane, which is undefined on the hardware: modelled as `none`. -/
def active_lanes_increment_return (active_lanes_mask c laneid : Nat) : Option Nat :=
  let leader := select_leader_lane true active_lanes_mask
  if active_lanes_mask.testBit leader then
    some (c + (if lane_index_among_active_lanes active_lanes_mask laneid then 1 else 0))
  else none

/-- C5: on the active mask with only lanes 5 and 9 set (mask 0x220 = 544), the code
returns `count_leading_zeros = 22` for `PreferFirst = true` and
`count_trailing_zeros = 5` for `PreferFirst = false`, not the lowest-index active
lane 5 and the highest-index active lane 9 promised by the claim (and by the
function's own documentation, which says the first active lane gets index 0). -/
theorem select_leader_lane_bug :
    select_leader_lane true 544 = 22 ∧ select_leader_lane false 544 = 5 ∧
    ¬(select_leader_lane true 544 = 5 ∧ select_leader_lane false 544 = 9) := by
  decide

/-- C8: called by lane 5 (with all 32 lanes active, mask 0xFFFFFFFF), the function
returns 1, not the caller's lane index 5: the popcount of the preceding-lanes mask is
indeed 5, but the `bool` return type of the detail function truncates it to `true`,
which the public wrapper converts to 1. -/
theorem lane_index_among_active_lanes_bug :
    warp_lane_index_among_active_lanes 4294967295 5 = 1 ∧
    popcount32 (2 ^ 5 - 1) = 5 := by
  decide

/-- C9: with active lanes {5, 9} (mask 544) and counter value 7, the leader index
computed via `count_leading_zeros` is 22, which is not an active lane, so no atomic
add executes and the counter keeps the value 7 instead of 7 + 2; and with all 32
lanes active and counter 0, lane 5 receives 0 + 1 (the truncated rank) instead of
its rank 5 among the active lanes. -/
theorem active_lanes_increment_bug :
    active_lanes_increment_counter 544 7 = 7 ∧
    active_lanes_increment_return 4294967295 0 5 = some 1 := by
  decide

/-- From `multisearch` (part_000, lines 689-721), the binary-search phase. One step of
the source loop `while (bounds.upper - bounds.lower >= 6)`: reads
`__shfl(lane_needle, mid)` — the needle of lane `mid`, exactly as in the source —
and moves `lower` up past `mid` when `lane_needle <= mid_straw`, otherwise moves
`upper` down to `mid`. The `fuel` argument bounds the number of iterations; every
iteration strictly shrinks `upper - lower`, so fuel `upper - lower` never runs out. -/
def multisearchBinGo (needle : Nat → Nat) (lane_needle : Nat) :
    Nat → Nat → Nat → Nat × Nat
  | 0, lower, upper => (lower, upper)
  | fuel + 1, lower, upper =>
    if 6 ≤ upper - lower then
      let mid := (lower + upper) / 2
      let mid_lane_hay_straw := needle mid
      if lane_needle ≤ mid_lane_hay_straw then
        multisearchBinGo needle lane_needle fuel (mid + 1) upper
      else
        multisearchBinGo needle lane_needle fuel lower mid
    else (lower, upper)

/-- From `multisearch` (part_000, lines 714-719), the linear-scan phase over lanes
`[lower, upper)`: the first lane whose shuffled value (`__shfl(lane_needle, lane)`,
again the needle) is strictly greater than the caller's needle gives the result;
otherwise the result stays `{lane_index = W, value unset}` (the unset value of
`search_result_t` is modelled `none`). -/
def multisearchLinear (needle : Nat → Nat) (lane_needle W lower upper : Nat) :
    Nat × Option Nat :=
  match (List.range' lower (upper - lower)).find? (fun j => lane_needle < needle j) with
  | some j => (j, some (needle j))
  | none => (W, none)

/-- From `multisearch` (part_000, lines 689-721), generalised over the group width `W`
(the source instantiates `W = warp_size = 32`): initial bounds are `[0, lane)` when
`needle lane ≤ hay lane` and `[lane+1, W)` otherwise, then the binary phase, then the
linear phase. -/
def multisearch (W : Nat) (needle hay : Nat → Nat) (lane : Nat) : Nat × Option Nat :=
  let bounds := if needle lane ≤ hay lane then (0, lane) else (lane + 1, W)
  let b := multisearchBinGo needle (needle lane) (bounds.2 - bounds.1) bounds.1 bounds.2
  multisearchLinear needle (needle lane) W b.1 b.2

/-- C4: on the spec's own example — 4 lanes, sorted hay values [10,20,30,40], needles
equal to the hay values — the code returns `{lane_index = 4 (= W), unset}` on every
lane, not the promised lane indices [1,2,3,not-found] with values [20,30,40,-]: a
lane whose needle is `≤` its own straw searches only the interval `[0, lane)`,
excluding every lane that could hold a strictly greater value. The first conjunct
records that the hay sequence of the example is strictly sorted, so the claim's
precondition holds. -/
theorem multisearch_spec_example_bug :
    List.Pairwise (fun a b => a < b) ((List.range 4).map (fun i => 10 * (i + 1))) ∧
    multisearch 4 (fun i => 10 * (i + 1)) (fun i => 10 * (i + 1)) 0 = (4, none) ∧
    multisearch 4 (fun i => 10 * (i + 1)) (fun i => 10 * (i + 1)) 1 = (4, none) ∧
    multisearch 4 (fun i => 10 * (i + 1)) (fun i => 10 * (i + 1)) 2 = (4, none) ∧
    multisearch 4 (fun i => 10 * (i + 1)) (fun i => 10 * (i + 1)) 3 = (4, none) ∧
    ¬multisearch 4 (fun i => 10 * (i + 1)) (fun i => 10 * (i + 1)) 0 = (1, some 20) := by
  decide

/-- From `clear_lower_k_bits` (bit_operations.cuh, used at part_000 line 368 and
part_001 line 172): clears the `k` lowest bits, i.e. rounds down to a multiple of
`2^k`. -/
def clear_lower_k_bits (n k : Nat) : Nat := 2 ^ k * (n / 2 ^ k)

/-- From `log2_constexpr` (math.cuh, not under src/; only ever applied to the
compile-time power-of-two `elements_per_full_warp_write` / `elements_per_thread_write`):
the base-2 logarithm of a 32-bit power of two. -/
def log2_constexpr (n : Nat) : Nat := (List.range 32).findIdx (fun k => n < 2 ^ (k + 1))

/-- The positions visited by a source loop `for (pos = start; pos < bound; pos += step)`:
`start + k * step` for `k` below the trip count `⌈(bound - start) / step⌉`. -/
def stride_positions (start step bound : Nat) : List Nat :=
  (List.range ((bound - start + (step - 1)) / step)).map (fun k => start + k * step)

/-- From `copy_n` (part_000, lines 344-398) and `detail::naive_copy` (lines 298-309),
as the list of (position, value) writes performed by the 32 lanes of a warp. `f` is
`elements_per_full_warp_write` (its definition lives in common.cuh, outside src/, so
it is a parameter here; per the spec it is the number of copies of `sizeof(T)` in the
native 4-byte write). `f = 1` takes the `naive_copy` path. Otherwise the main loop
makes packed writes of `f` elements over the truncated length, and then, under
`MayHaveSlack`: for `f = 2` every lane writes element `truncated_length`
unconditionally (the source comments that "the slack must be exactly 1"); for larger
`f`, lanes below `length - truncated_length` write one element each. -/
def copy_n_writes (f : Nat) (mayHaveSlack : Bool) (source : Nat → Nat)
    (length : Nat) : List (Nat × Nat) :=
  if f = 1 then
    (List.range 32).flatMap (fun lane =>
      (stride_positions lane 32 length).map (fun p => (p, source p)))
  else
    let truncated := if mayHaveSlack then clear_lower_k_bits length (log2_constexpr f) else length
    let full := (List.range 32).flatMap (fun lane =>
      (stride_positions (lane * f) (32 * f) truncated).flatMap (fun b =>
        (List.range f).map (fun e => (b + e, source (b + e)))))
    let slack : List (Nat × Nat) :=
      if mayHaveSlack then
        if f = 2 then (List.range 32).map (fun _ => (truncated, source truncated))
        else (List.range (length - truncated)).map
          (fun lane => (truncated + lane, source (truncated + lane)))
      else []
    full ++ slack

/-- C10: with packing factor 2 (a 2-byte element type) and even length 2, `copy_n`
with `MayHaveSlack = true` copies elements 0 and 1 correctly but also writes position
2 = length (the `f == 2` slack write `target[truncated_length] = source[truncated_length]`
executes unconditionally, and here `truncated_length = length`), so the write set is
not contained in `[0, length)` as the claim requires. -/
theorem copy_n_oob_bug :
    (0, 0) ∈ copy_n_writes 2 true (fun i => i) 2 ∧
    (1, 1) ∈ copy_n_writes 2 true (fun i => i) 2 ∧
    (2, 2) ∈ copy_n_writes 2 true (fun i => i) 2 ∧
    ((copy_n_writes 2 true (fun i => i) 2).all (fun pv => decide (pv.1 < 2))) = false := by
  decide

/-- One Hillis-Steele ladder step at offset `o` (part_000, lines 149-152): lane `i`
reads `__shfl_up(x, o)`, the value of lane `i - o`, and accumulates it when
`lane::index() >= o`. Modelled from the spec for the accumulator of functors.hpp (not
under src/): `acc_op(x, shuffled)` accumulates the shuffled value into the lane's own
register, `x_i := op x_i x_{i-o}`. -/
def scanStep {α : Type} (op : α → α → α) (o : Nat) (x : Nat → α) : Nat → α :=
  fun i => if o ≤ i then op (x i) (x (i - o)) else x i

/-- The ladder of `k` steps with offsets `1, 2, ..., 2^(k-1)`; the source loop
`for (int offset = 1; offset < warp_size; offset <<= 1)` (part_000, line 149)
performs exactly `log2 (warp_size) = 5` such steps. -/
def scanLadder {α : Type} (op : α → α → α) : Nat → (Nat → α) → (Nat → α)
  | 0, x => x
  | k + 1, x => scanStep op (2 ^ k) (scanLadder op k x)

/-- `scan<Op, Inclusive>` (part_000, lines 127-154) at warp size 32: the ladder
applied to the per-lane inputs. -/
def scanInclusive {α : Type} (op : α → α → α) (v : Nat → α) : Nat → α :=
  scanLadder op 5 v

/-- `scan<Op, Exclusive>` (part_000, lines 139-143): pre-shift the inputs one lane up
(`__shfl_up(value, 1)`), give lane 0 the operator's neutral value `e`, then run the
same ladder. -/
def scanExclusive {α : Type} (op : α → α → α) (e : α) (v : Nat → α) : Nat → α :=
  scanLadder op 5 (fun i => if i = 0 then e else v (i - 1))

/-- The specification-side fold: `opFold op v i` is the `op`-fold of the values of
lanes `0..i` in lane order, `v 0 ⬝ v 1 ⬝ … ⬝ v i`. -/
def opFold {α : Type} (op : α → α → α) (v : Nat → α) (i : Nat) : α :=
  List.foldl (fun a j => op a (v j)) (v 0) (List.range' 1 i)

/-- The fold of `v` over the index window `[a, b]` (nonempty when `a ≤ b`). -/
def windowFold {α : Type} (op : α → α → α) (v : Nat → α) (a b : Nat) : α :=
  List.foldl (fun x j => op x (v j)) (v a) (List.range' (a + 1) (b - a))

/-- Associativity of a binary operation on `Bool`, as a decidable proposition. -/
def AssocOn (op : Bool → Bool → Bool) : Prop :=
  ∀ a b c, op (op a b) c = op a (op b c)

theorem foldl_op_push {α : Type} (op : α → α → α) (v : Nat → α)
    (hassoc : ∀ a b c, op (op a b) c = op a (op b c)) :
    ∀ (l : List Nat) (x y : α),
      op x (List.foldl (fun a j => op a (v j)) y l) =
        List.foldl (fun a j => op a (v j)) (op x y) l := by
  intro l
  induction l with
  | nil => intro x y; rfl
  | cons j t ih =>
    intro x y
    simp only [List.foldl_cons]
    rw [ih, hassoc]

theorem windowFold_split {α : Type} (op : α → α → α) (v : Nat → α)
    (hassoc : ∀ a b c, op (op a b) c = op a (op b c))
    (a m b : Nat) (ham : a ≤ m) (hmb : m < b) :
    windowFold op v a b = op (windowFold op v a m) (windowFold op v (m + 1) b) := by
  unfold windowFold
  have hsplit : b - a = (b - m) + (m - a) := by omega
  rw [hsplit, ← List.range'_append_1, List.foldl_append]
  have hm1 : a + 1 + (m - a) = m + 1 := by omega
  rw [hm1]
  have hbm : b - m = (b - (m + 1)) + 1 := by omega
  rw [hbm]
  have hcons : List.range' (m + 1) ((b - (m + 1)) + 1) =
      (m + 1) :: List.range' (m + 2) (b - (m + 1)) := by
    rw [List.range'_succ]
  rw [hcons]
  simp only [List.foldl_cons]
  rw [foldl_op_push op v hassoc]

theorem scanLadder_window {α : Type} (op : α → α → α) (v : Nat → α)
    (hassoc : ∀ a b c, op (op a b) c = op a (op b c))
    (hcomm : ∀ a b, op a b = op b a) :
    ∀ (k i : Nat), scanLadder op k v i = windowFold op v (i + 1 - 2 ^ k) i := by
  intro k
  induction k with
  | zero =>
    intro i
    have h1 : i + 1 - 2 ^ 0 = i := by omega
    simp only [scanLadder, h1, windowFold, Nat.sub_self, List.range', List.foldl_nil]
  | succ k ih =>
    intro i
    have hpow : 0 < 2 ^ k := Nat.pos_pow_of_pos k (by omega)
    simp only [scanLadder, scanStep]
    by_cases hi : 2 ^ k ≤ i
    · simp only [hi, if_true, ih]
      have hm1 : (i - 2 ^ k) + 1 - 2 ^ k = i + 1 - 2 ^ (k + 1) := by
        have : 2 ^ (k + 1) = 2 ^ k + 2 ^ k := by rw [Nat.pow_succ]; omega
        omega
      have hA : i + 1 - 2 ^ k = (i - 2 ^ k) + 1 := by omega
      rw [hm1, hA, hcomm]
      have hL : i + 1 - 2 ^ (k + 1) ≤ i - 2 ^ k := by
        have : 2 ^ (k + 1) = 2 ^ k + 2 ^ k := by rw [Nat.pow_succ]; omega
        omega
      have hm : i - 2 ^ k < i := by omega
      rw [← windowFold_split op v hassoc _ _ _ hL hm]
    · simp only [hi, if_false, ih]
      have h1 : i + 1 - 2 ^ k = 0 := by omega
      have h2 : i + 1 - 2 ^ (k + 1) = 0 := by
        have : 2 ^ k ≤ 2 ^ (k + 1) := Nat.pow_le_pow_right (by omega) (by omega)
        omega
      rw [h1, h2]

/-- C6 counterexample: left projection `fun a b => a` on `Bool` is associative, yet
`scan<Op, Inclusive>` with that operator leaves lane 1 holding its own input value
`true`, not the fold `v 0 ⬝ v 1 = false` of lanes `0..1`: the ladder accumulates the
shuffled value on the *right* of the lane's accumulator, so for a non-commutative
associative operator the result is not the fold of lanes `0..i` in lane order. -/
theorem scan_assoc_only_counterexample :
    AssocOn (fun a _ => a) ∧
    scanInclusive (fun a _ => a) (fun i => decide (i = 1)) 1 = true ∧
    opFold (fun a _ => a) (fun i => decide (i = 1)) 1 = false := by
  refine ⟨fun a b c => rfl, by decide, by decide⟩

/-- C6 (amended): for every associative *and commutative* operator, `scan<Op,
Inclusive>` leaves lane `i < 32` holding the `Op`-fold of the values of lanes `0..i`,
and `scan<Op, Exclusive>` gives lane 0 the operator's neutral value and lane
`0 < i < 32` the fold of lanes `0..i-1`; in particular `scan<plus, Inclusive>` over
32 lanes each holding 1 leaves lane `i` holding `i+1` and the `Exclusive` variant
leaves lane `i` holding `i` (witness below). -/
theorem scan_correct {α : Type} (op : α → α → α) (e : α) (v : Nat → α)
    (hassoc : ∀ a b c, op (op a b) c = op a (op b c))
    (hcomm : ∀ a b, op a b = op b a)
    (hneut : ∀ a, op e a = a) :
    (∀ i, i < 32 → scanInclusive op v i = opFold op v i) ∧
    scanExclusive op e v 0 = e ∧
    (∀ i, 0 < i → i < 32 → scanExclusive op e v i = opFold op v (i - 1)) := by
  have hIncl : ∀ i, i < 32 → scanInclusive op v i = opFold op v i := by
    intro i hi
    have h := scanLadder_window op v hassoc hcomm 5 i
    have h0 : i + 1 - 2 ^ 5 = 0 := by omega
    rw [scanInclusive, h, h0]
    rfl
  refine ⟨hIncl, ?_, ?_⟩
  · have h := scanLadder_window op (fun i => if i = 0 then e else v (i - 1)) hassoc hcomm 5 0
    rw [scanExclusive, h]
    rfl
  · intro i h0i hi
    have h := scanLadder_window op (fun j => if j = 0 then e else v (j - 1)) hassoc hcomm 5 i
    have hz : i + 1 - 2 ^ 5 = 0 := by omega
    rw [scanExclusive, h, hz]
    have hshift : ∀ (n s : Nat) (z : α),
        List.foldl (fun a j => op a (if j = 0 then e else v (j - 1))) z
            (List.range' (s + 1) n) =
          List.foldl (fun a j => op a (v j)) z (List.range' s n) := by
      intro n
      induction n with
      | zero => intro s z; rfl
      | succ n ihn =>
        intro s z
        rw [List.range'_succ, List.range'_succ]
        simp only [List.foldl_cons]
        have hne : ¬(s + 1 = 0) := Nat.succ_ne_zero s
        simp only [hne, if_false, Nat.add_sub_cancel]
        exact ihn (s + 1) (op z (v s))
    show windowFold op (fun j => if j = 0 then e else v (j - 1)) 0 i = opFold op v (i - 1)
    unfold windowFold opFold
    have hi1 : i - 0 = (i - 1) + 1 := by omega
    rw [hi1, List.range'_succ]
    simp only [List.foldl_cons]
    have hne1 : ¬(0 + 1 = 0) := by omega
    simp only [if_pos rfl, if_true, hne1, if_false, Nat.add_sub_cancel]
    rw [show (0:Nat) + 1 + 1 = 1 + 1 from rfl, hshift (i - 1) 1]
    rw [hneut]

/-- C6 witness: `scan<plus, Inclusive>` over constant input 1 leaves lane 7 holding
8, and the `Exclusive` variant (neutral value 0) leaves lane 7 holding 7. -/
theorem scan_correct_witness :
    scanInclusive (fun a b => a + b) (fun _ => 1) 7 = 8 ∧
    scanExclusive (fun a b => a + b) 0 (fun _ => 1) 7 = 7 := by
  have h := scan_correct (fun a b : Nat => a + b) 0 (fun _ => 1)
    (fun a b c => Nat.add_assoc a b c) (fun a b => Nat.add_comm a b)
    (fun a => Nat.zero_add a)
  exact ⟨(h.1 7 (by decide)).trans (by decide), (h.2.2 7 (by decide) (by decide)).trans (by decide)⟩

/-! ## The RPE decompression engine (src/unnamed/part_001)

The kernel is modelled with `PositionsAreRelative = false`: write positions and run
start positions are absolute (`write_position = relative_write_position +
params.uncompressed_start_position`, line 112, and the `decompressed` pointer is not
offset, line 365). `epw` stands for the compile-time constant
`elements_per_thread_write` (lines 57-60), which is 1 for 4- and 8-byte values and
`4 / UncompressedSize` (a power of two) for smaller ones. `B` is the number of
threads per block; the launch configuration (lines 396-402) always makes it a
positive multiple of the warp size 32. -/

/-- The run-table scan of `decompress_a_segment_with_few_runs` (part_001, lines
132-137): `for (; run_index < num_runs; run_index++) { if
(run_start_positions[run_index] > target) break; }`, by structural recursion on the
remaining fuel `num_runs - run_index`. -/
def runSearchGo (rsp : Nat → Nat) (target : Nat) : Nat → Nat → Nat
  | 0, run_index => run_index
  | fuel + 1, run_index =>
    if target < rsp run_index then run_index
    else runSearchGo rsp target fuel (run_index + 1)

/-- The scan loop started at `run_index`: the first index in `[run_index, num_runs)`
whose start position exceeds `target`, or `num_runs` if there is none (or
`run_index` itself if `run_index` is already at or past `num_runs`). This same loop
shape also implements the slack-path `while` loop (part_001, lines 221-225). -/
def runSearchFrom (rsp : Nat → Nat) (num_runs target run_index : Nat) : Nat :=
  runSearchGo rsp target (num_runs - run_index) run_index

/-- The per-sub-element loop of `locate_and_perform_next_write` (part_001, lines
127-142): for each of `count` packed sub-elements at positions `target, target + 1,
…`, advance `run_index` through the run table (the index persists from one
sub-element to the next) and read `run_data[run_index - 1]`. Returns the list of
values and the final `run_index`. -/
def writeElemsGo (rsp run_data : Nat → Nat) (num_runs : Nat) :
    Nat → Nat → Nat → List Nat × Nat
  | 0, run_index, _ => ([], run_index)
  | count + 1, run_index, target =>
    let ri := runSearchFrom rsp num_runs target run_index
    let rest := writeElemsGo rsp run_data num_runs count ri (target + 1)
    (run_data (ri - 1) :: rest.1, rest.2)

/-- One full-width thread write (part_001, lines 107-145): the run scan starts at
`first_possible_run_for_next_write + 1` (line 117); the `.2` component minus one is
`run_covering_current_element` after the last sub-element. -/
def threadWrite (rsp run_data : Nat → Nat) (num_runs fp wp epw : Nat) :
    List Nat × Nat :=
  writeElemsGo rsp run_data num_runs epw (fp + 1) wp

/-- The relative write position of thread `t` (of `B` per block) in round `r` of the
block-stride loop (part_001, lines 174-181): the loop starts at
`thread::index_in_block() * elements_per_thread_write` and strides by
`block::length() * elements_per_thread_write`. -/
def posOf (B epw t r : Nat) : Nat := t * epw + r * (B * epw)

/-- The warp-uniform search state `first_possible_run_for_next_write` (part_001,
lines 96-98 and 147-164) of warp `w` entering round `r`: initialized to 0; after a
round in which the warp's last lane (thread `w * 32 + 31`) participated, it becomes
`get_from_last_lane(run_covering_current_element)`, the covering run found for that
lane's last packed sub-element (the update at lines 158-161 is guarded, so only
lanes with a further write adopt it; such lanes exist in a later round only if lane
31 participated in this one, because `B ≥ 32`). -/
def fpSeq (rsp run_data : Nat → Nat) (num_runs B epw start truncated w : Nat) :
    Nat → Nat
  | 0 => 0
  | r + 1 =>
    let fp := fpSeq rsp run_data num_runs B epw start truncated w r
    let p31 := posOf B epw (w * 32 + 31) r
    if p31 < truncated then
      (threadWrite rsp run_data num_runs fp (start + p31) epw).2 - 1
    else fp

/-- The (position, value) pairs written by thread `w * 32 + lane` in round `r` of
the block-stride loop: a packed write of `epw` consecutive elements at absolute
position `start + posOf …` (part_001, lines 112, 144-145), empty once the thread's
relative position passes the truncated length (loop condition, line 177). -/
def threadRoundWrites (rsp run_data : Nat → Nat)
    (num_runs B epw start truncated w lane r : Nat) : List (Nat × Nat) :=
  let p := posOf B epw (w * 32 + lane) r
  if p < truncated then
    let fp := fpSeq rsp run_data num_runs B epw start truncated w r
    let vals := (threadWrite rsp run_data num_runs fp (start + p) epw).1
    (List.range epw).map (fun e => (start + p + e, vals.getD e 0))
  else []

/-- The number of rounds of the block-stride loop before every thread of the block
has exited: `⌈truncated / (B * epw)⌉` (thread 0 is the last to exit). -/
def numRounds (B epw truncated : Nat) : Nat :=
  (truncated + B * epw - 1) / (B * epw)

/-- All full-width writes of one block: every warp `w < B / 32`, round, and lane. -/
def blockFullWrites (rsp run_data : Nat → Nat)
    (num_runs B epw start truncated : Nat) : List (Nat × Nat) :=
  (List.range (B / 32)).flatMap (fun w =>
    (List.range (numRounds B epw truncated)).flatMap (fun r =>
      (List.range 32).flatMap (fun lane =>
        threadRoundWrites rsp run_data num_runs B epw start truncated w lane r)))

/-- The number of rounds in which thread `t` participates in the block-stride loop:
its exit value of `relative_write_position` is `posOf B epw t (numActiveRounds …)`. -/
def numActiveRounds (B epw truncated t : Nat) : Nat :=
  (truncated - t * epw + B * epw - 1) / (B * epw)

/-- The number of rounds in which thread `t` takes the broadcast update of
`first_possible_run_for_next_write` (part_001, lines 156-161): rounds `r` in which
the thread participates *and* its next relative position is still below
`decompressed_length`; both conditions hold on an initial segment of rounds, so the
thread's final private copy of the state is `fpSeq … (numUpdateRounds …)`. -/
def numUpdateRounds (B epw truncated length t : Nat) : Nat :=
  min (numActiveRounds B epw truncated t)
    ((length - (t * epw + B * epw) + B * epw - 1) / (B * epw))

/-- The value of `first_possible_run_for_next_write` held by thread `w * 32 + lane`
after the block-stride loop has finished. -/
def laneFinalFp (rsp run_data : Nat → Nat)
    (num_runs B epw start truncated length w lane : Nat) : Nat :=
  fpSeq rsp run_data num_runs B epw start truncated w
    (numUpdateRounds B epw truncated length (w * 32 + lane))

/-- The predicate `this_thread_wrote_last_element_so_far` (part_001, lines 205-207):
the thread's exit value of `relative_write_position` equals
`(truncated_decompressed_length - elements_per_thread_write) +
elements_per_thread_write * block::length()`. -/
def wroteLastPred (B epw truncated t : Nat) : Bool :=
  posOf B epw t (numActiveRounds B epw truncated t) == truncated - epw + epw * B

/-- The slack writes of one block (part_001, lines 194-228), executed only when
`elements_per_thread_write > 1`: with `num_slack = decompressed_length - truncated`
elements left over, either (`truncated = 0`) threads `0 ≤ j < num_slack` of the
block write with the state reset to 0, or the unique warp containing the thread that
wrote the last full-width element re-derives the state by broadcasting from that
lane (`first_lane_satisfying`, line 209-212) and its lanes `j < num_slack` write one
element each at `num_actually_decompressed + lane::index()` (+ the segment start,
since positions are absolute). -/
def blockSlackWrites (rsp run_data : Nat → Nat)
    (num_runs B epw start truncated length : Nat) : List (Nat × Nat) :=
  if 1 < epw then
    let num_slack := length - truncated
    if num_slack = 0 then []
    else if truncated = 0 then
      (List.range num_slack).map (fun j =>
        let pos := start + j
        let ri := runSearchFrom rsp num_runs pos (0 + 1)
        (pos, run_data (ri - 1)))
    else
      (List.range (B / 32)).flatMap (fun w =>
        match (List.range 32).find?
            (fun lane => wroteLastPred B epw truncated (w * 32 + lane)) with
        | none => []
        | some lane0 =>
          let fp := laneFinalFp rsp run_data num_runs B epw start truncated length w lane0
          (List.range num_slack).map (fun j =>
            let pos := start + truncated + j
            let ri := runSearchFrom rsp num_runs pos (fp + 1)
            (pos, run_data (ri - 1))))
  else []

/-- The segment descriptor of part_001, lines 26-38. -/
structure SegmentDecompressionParams where
  first_run_index : Nat
  num_runs : Nat
  uncompressed_start_position : Nat
  decompressed_length : Nat

/-- From `resolve_segment_decompression_params` (part_001, lines 252-307) for block
(work-group) `g`. -/
def resolve_segment_decompression_params (rsp anchors : Nat → Nat)
    (anchoring_period num_anchors num_element_runs total_uncompressed_length g : Nat) :
    SegmentDecompressionParams :=
  let uncompressed_start_position := g * anchoring_period
  let is_last_segment : Bool := g + 1 == num_anchors
  let decompressed_length := if is_last_segment
    then total_uncompressed_length - uncompressed_start_position
    else anchoring_period
  let first_run_index := anchors g
  let one_past_last_run_index := if is_last_segment then num_element_runs
    else
      let run_index_at_next_anchor := anchors (g + 1)
      let next_uncompressed_segment_start_position :=
        uncompressed_start_position + anchoring_period
      run_index_at_next_anchor +
        (if rsp run_index_at_next_anchor < next_uncompressed_segment_start_position
          then 1 else 0)
  { first_run_index := first_run_index
    num_runs := one_past_last_run_index - first_run_index
    uncompressed_start_position := uncompressed_start_position
    decompressed_length := decompressed_length }

/-- The complete list of (position, value) writes of block `g` of the `decompress`
kernel (part_001, lines 327-370): resolve the segment parameters, then run
`decompress_a_segment_with_few_runs` on the segment-local run tables (the run
pointers are offset by `first_run_index`, lines 367-368). -/
def blockWrites (rsp run_data anchors : Nat → Nat)
    (anchoring_period num_anchors num_element_runs total B epw g : Nat) :
    List (Nat × Nat) :=
  let params := resolve_segment_decompression_params rsp anchors anchoring_period
    num_anchors num_element_runs total g
  let rspL := fun i => rsp (params.first_run_index + i)
  let rdL := fun i => run_data (params.first_run_index + i)
  let truncated := clear_lower_k_bits params.decompressed_length (log2_constexpr epw)
  blockFullWrites rspL rdL params.num_runs B epw
      params.uncompressed_start_position truncated ++
    blockSlackWrites rspL rdL params.num_runs B epw
      params.uncompressed_start_position truncated params.decompressed_length

/-- All writes of the kernel grid: one block per anchored segment (the launch
configuration resolves `grid length = num_anchored_segments`, part_001, lines
392-397). -/
def kernelWrites (rsp run_data anchors : Nat → Nat)
    (anchoring_period num_anchors num_element_runs total B epw : Nat) :
    List (Nat × Nat) :=
  (List.range num_anchors).flatMap (fun g =>
    blockWrites rsp run_data anchors anchoring_period num_anchors num_element_runs
      total B epw g)

/-- Applying a list of (position, value) writes to an output buffer, in order. -/
def applyWrites (ws : List (Nat × Nat)) (buf : List Nat) : List Nat :=
  ws.foldl (fun b pv => b.set pv.1 pv.2) buf

/-! ### The RPE encoder (specification side)

The compressed representation of an array partitioned into runs: a run list is a
`List (Nat × Nat)` of (value, length) pairs. -/

/-- The uncompressed array described by a run list. -/
def originalOf (runs : List (Nat × Nat)) : List Nat :=
  runs.flatMap (fun rv => List.replicate rv.2 rv.1)

/-- `run_start_positions[i]`: the absolute start of run `i`, the sum of the lengths
of the earlier runs. -/
def runStartAt (runs : List (Nat × Nat)) (i : Nat) : Nat :=
  ((runs.take i).map (fun rv => rv.2)).sum

/-- `run_data[i]`: the value of run `i`. -/
def runValueAt (runs : List (Nat × Nat)) (i : Nat) : Nat :=
  (runs.getD i (0, 0)).1

/-- `c` is the index of the run covering position `p`: `c` is a real run, starts at
or before `p`, and every later run starts after `p`. -/
def IsCover (rsp : Nat → Nat) (num_runs c p : Nat) : Prop :=
  c < num_runs ∧ rsp c ≤ p ∧ ∀ i, c < i → i < num_runs → p < rsp i

/-- The index of the run covering position `p`: one less than the first run index
whose start position exceeds `p`. -/
def coverIndex (rsp : Nat → Nat) (num_runs p : Nat) : Nat :=
  runSearchFrom rsp num_runs p 0 - 1

/-- The anchor table produced by the RPE encoder: `position_anchors[g]` is the index
of the run covering output position `g * anchoring_period`. -/
def anchorsOf (runs : List (Nat × Nat)) (anchoring_period g : Nat) : Nat :=
  coverIndex (runStartAt runs) runs.length (g * anchoring_period)

/-! ### Correctness of the run-table scan -/

theorem runSearchGo_le (rsp : Nat → Nat) (target : Nat) :
    ∀ fuel s, s ≤ runSearchGo rsp target fuel s ∧
      runSearchGo rsp target fuel s ≤ s + fuel := by
  intro fuel
  induction fuel with
  | zero => intro s; simp only [runSearchGo]; omega
  | succ fuel ih =>
    intro s
    simp only [runSearchGo]
    by_cases h : target < rsp s
    · simp only [h, if_true]; omega
    · simp only [h, if_false]
      have := ih (s + 1)
      omega

theorem runSearchGo_below (rsp : Nat → Nat) (target : Nat) :
    ∀ fuel s i, s ≤ i → i < runSearchGo rsp target fuel s → ¬target < rsp i := by
  intro fuel
  induction fuel with
  | zero =>
    intro s i hsi hi
    simp only [runSearchGo] at hi
    omega
  | succ fuel ih =>
    intro s i hsi hi
    simp only [runSearchGo] at hi
    by_cases h : target < rsp s
    · simp only [h, if_true] at hi; omega
    · simp only [h, if_false] at hi
      rcases Nat.eq_or_lt_of_le hsi with he | hlt
      · rw [← he]; exact h
      · exact ih (s + 1) i hlt hi

theorem runSearchGo_found (rsp : Nat → Nat) (target : Nat) :
    ∀ fuel s, runSearchGo rsp target fuel s < s + fuel →
      target < rsp (runSearchGo rsp target fuel s) := by
  intro fuel
  induction fuel with
  | zero => intro s h; simp only [runSearchGo] at h; omega
  | succ fuel ih =>
    intro s h
    simp only [runSearchGo] at h ⊢
    by_cases hh : target < rsp s
    · simp only [hh, if_true]
    · simp only [hh, if_false] at h ⊢
      exact ih (s + 1) (by omega)

theorem runSearchFrom_cover (rsp : Nat → Nat) (num_runs c p s : Nat)
    (hmono : ∀ i j, i < j → j < num_runs → rsp i < rsp j)
    (hc : IsCover rsp num_runs c p) (hs : s ≤ c + 1) :
    runSearchFrom rsp num_runs p s = c + 1 := by
  obtain ⟨hcR, hcle, hcgt⟩ := hc
  unfold runSearchFrom
  have hle := runSearchGo_le rsp p (num_runs - s) s
  have hbelow := runSearchGo_below rsp p (num_runs - s) s
  have hfound := runSearchGo_found rsp p (num_runs - s) s
  generalize runSearchGo rsp p (num_runs - s) s = r at hle hbelow hfound ⊢
  have hsR : s ≤ num_runs := by omega
  have h1 : r ≤ c + 1 := by
    rcases Nat.lt_or_ge (c + 1) num_runs with hcc | hcc
    · by_contra hgt
      exact hbelow (c + 1) (by omega) (by omega) (hcgt (c + 1) (by omega) hcc)
    · omega
  have h2 : c + 1 ≤ r := by
    by_contra hlt
    push_neg at hlt
    have hfr : p < rsp r := hfound (by omega)
    rcases Nat.eq_or_lt_of_le (show r ≤ c by omega) with he | hcl
    · rw [he] at hfr; omega
    · have := hmono r c hcl hcR
      omega
  omega

theorem isCover_mono (rsp : Nat → Nat) (num_runs c c' p p' : Nat)
    (h : IsCover rsp num_runs c p) (h' : IsCover rsp num_runs c' p') (hpp : p ≤ p') :
    c ≤ c' := by
  by_contra hgt
  push_neg at hgt
  have h1 := h'.2.2 c hgt h.1
  have h2 := h.2.1
  omega

theorem coverIndex_isCover (rsp : Nat → Nat) (num_runs p : Nat)
    (hmono : ∀ i j, i < j → j < num_runs → rsp i < rsp j)
    (h0 : rsp 0 ≤ p) (hR : 0 < num_runs) :
    IsCover rsp num_runs (coverIndex rsp num_runs p) p := by
  unfold coverIndex runSearchFrom
  have hle := runSearchGo_le rsp p (num_runs - 0) 0
  have hbelow := runSearchGo_below rsp p (num_runs - 0) 0
  have hfound := runSearchGo_found rsp p (num_runs - 0) 0
  generalize runSearchGo rsp p (num_runs - 0) 0 = r at hle hbelow hfound ⊢
  have hr1 : 1 ≤ r := by
    by_contra h0r
    have hr0 : r = 0 := by omega
    have hf := hfound (by omega)
    rw [hr0] at hf
    omega
  refine ⟨by omega, ?_, ?_⟩
  · have := hbelow (r - 1) (by omega) (by omega)
    omega
  · intro i hi hiR
    rcases Nat.eq_or_lt_of_le (show r ≤ i by omega) with he | hlt
    · have hf := hfound (by omega)
      rw [he] at hf; exact hf
    · have hf : p < rsp r := hfound (by omega)
      have := hmono r i hlt hiR
      omega

theorem writeElemsGo_eq (rsp rd : Nat → Nat) (num_runs : Nat) (cov : Nat → Nat)
    (hmono : ∀ i j, i < j → j < num_runs → rsp i < rsp j) :
    ∀ (n tp s : Nat), 0 < n →
      (∀ e, e < n → IsCover rsp num_runs (cov (tp + e)) (tp + e)) →
      s ≤ cov tp + 1 →
      writeElemsGo rsp rd num_runs n s tp =
        ((List.range n).map (fun e => rd (cov (tp + e))), cov (tp + (n - 1)) + 1) := by
  intro n
  induction n with
  | zero => intro tp s h0 _ _; omega
  | succ n ih =>
    intro tp s _ hcov hs
    have hc0 : IsCover rsp num_runs (cov (tp + 0)) (tp + 0) := hcov 0 (by omega)
    rw [Nat.add_zero] at hc0
    have hri : runSearchFrom rsp num_runs tp s = cov tp + 1 :=
      runSearchFrom_cover rsp num_runs (cov tp) tp s hmono hc0 hs
    simp only [writeElemsGo, hri]
    rcases Nat.eq_zero_or_pos n with hn | hn
    · subst hn
      simp only [writeElemsGo]
      rw [Nat.add_sub_cancel]
      rfl
    · have hc1 : IsCover rsp num_runs (cov (tp + 1)) (tp + 1) := hcov 1 (by omega)
      have hmc : cov tp ≤ cov (tp + 1) :=
        isCover_mono rsp num_runs (cov tp) (cov (tp + 1)) tp (tp + 1) hc0 hc1 (by omega)
      have hrec := ih (tp + 1) (cov tp + 1) hn
        (fun e he => by
          have := hcov (e + 1) (by omega)
          rw [show tp + (e + 1) = tp + 1 + e by omega] at this
          exact this)
        (by omega)
      rw [hrec]
      dsimp only
      rw [Prod.mk.injEq]
      refine ⟨?_, ?_⟩
      · rw [List.range_succ_eq_map, List.map_cons, List.map_map, Nat.add_sub_cancel,
          Nat.add_zero]
        refine congrArg₂ List.cons rfl ?_
        refine List.map_congr_left (fun e _ => ?_)
        simp only [Function.comp_apply]
        rw [show tp + 1 + e = tp + (e + 1) by omega]
      · rw [show tp + 1 + (n - 1) = tp + (n + 1 - 1) by omega]

/-! ### The search-state invariant of `decompress_a_segment_with_few_runs` -/

theorem posOf_mono_t (B epw t t' r : Nat) (h : t ≤ t') :
    posOf B epw t r ≤ posOf B epw t' r := by
  unfold posOf
  have := Nat.mul_le_mul_right epw h
  omega

theorem threadWrite_snd (rsp rd : Nat → Nat) (num_runs : Nat) (cov : Nat → Nat)
    (epw fp wp : Nat)
    (hmono : ∀ i j, i < j → j < num_runs → rsp i < rsp j)
    (hcov : ∀ e, e < epw → IsCover rsp num_runs (cov (wp + e)) (wp + e))
    (hepw : 0 < epw) (hfp : fp ≤ cov wp) :
    (threadWrite rsp rd num_runs fp wp epw).2 = cov (wp + (epw - 1)) + 1 := by
  unfold threadWrite
  rw [writeElemsGo_eq rsp rd num_runs cov hmono epw wp (fp + 1) hepw hcov (by omega)]

theorem fpSeq_le_cover (rsp rd : Nat → Nat) (num_runs B epw start truncated w : Nat)
    (cov : Nat → Nat)
    (hmono : ∀ i j, i < j → j < num_runs → rsp i < rsp j)
    (hcov : ∀ q, start ≤ q → IsCover rsp num_runs (cov q) q)
    (hB : 32 ≤ B) (hepw : 0 < epw) :
    ∀ r q, start + posOf B epw (w * 32) r ≤ q →
      fpSeq rsp rd num_runs B epw start truncated w r ≤ cov q := by
  intro r
  induction r with
  | zero => intro q hq; exact Nat.zero_le _
  | succ r ih =>
    intro q hq
    simp only [fpSeq]
    by_cases hact : posOf B epw (w * 32 + 31) r < truncated
    · simp only [hact, if_true]
      have hfp : fpSeq rsp rd num_runs B epw start truncated w r ≤
          cov (start + posOf B epw (w * 32 + 31) r) := by
        apply ih
        have := posOf_mono_t B epw (w * 32) (w * 32 + 31) r (by omega)
        omega
      rw [threadWrite_snd rsp rd num_runs cov epw _ _ hmono
        (fun e _ => hcov _ (by omega)) hepw hfp]
      rw [Nat.add_sub_cancel]
      refine isCover_mono rsp num_runs _ _ _ _ (hcov _ (by omega)) (hcov _ (by omega)) ?_
      have h32 : 32 * epw ≤ B * epw := Nat.mul_le_mul_right epw hB
      have hexp : posOf B epw (w * 32 + 31) r + epw + (B * epw - 32 * epw) + 1 =
          posOf B epw (w * 32) (r + 1) + (32 * epw - 31 * epw - epw) + 1 := by
        unfold posOf
        have e1 : (w * 32 + 31) * epw = w * 32 * epw + 31 * epw := by ring
        have e2 : (r + 1) * (B * epw) = r * (B * epw) + B * epw := by ring
        have e3 : 31 * epw + epw = 32 * epw := by ring
        omega
      omega
    · simp only [hact, if_false]
      apply ih
      have hpos : posOf B epw (w * 32) r ≤ posOf B epw (w * 32) (r + 1) := by
        unfold posOf
        have : r * (B * epw) ≤ (r + 1) * (B * epw) :=
          Nat.mul_le_mul_right (B * epw) (by omega)
        omega
      omega

theorem fpSeq_active_eq (rsp rd : Nat → Nat) (num_runs B epw start truncated w : Nat)
    (cov : Nat → Nat)
    (hmono : ∀ i j, i < j → j < num_runs → rsp i < rsp j)
    (hcov : ∀ q, start ≤ q → IsCover rsp num_runs (cov q) q)
    (hB : 32 ≤ B) (hepw : 0 < epw)
    (r : Nat) (hact : posOf B epw (w * 32 + 31) r < truncated) :
    fpSeq rsp rd num_runs B epw start truncated w (r + 1) =
      cov (start + posOf B epw (w * 32 + 31) r + (epw - 1)) := by
  simp only [fpSeq, hact, if_true]
  have hfp : fpSeq rsp rd num_runs B epw start truncated w r ≤
      cov (start + posOf B epw (w * 32 + 31) r) := by
    apply fpSeq_le_cover rsp rd num_runs B epw start truncated w cov hmono hcov hB hepw
    have := posOf_mono_t B epw (w * 32) (w * 32 + 31) r (by omega)
    omega
  rw [threadWrite_snd rsp rd num_runs cov epw _ _ hmono
    (fun e _ => hcov _ (by omega)) hepw hfp]
  rw [Nat.add_sub_cancel]

theorem fpSeq_mono (rsp rd : Nat → Nat) (num_runs B epw start truncated w : Nat)
    (cov : Nat → Nat)
    (hmono : ∀ i j, i < j → j < num_runs → rsp i < rsp j)
    (hcov : ∀ q, start ≤ q → IsCover rsp num_runs (cov q) q)
    (hB : 32 ≤ B) (hepw : 0 < epw) :
    ∀ r r', r ≤ r' → fpSeq rsp rd num_runs B epw start truncated w r ≤
      fpSeq rsp rd num_runs B epw start truncated w r' := by
  have hstep : ∀ r, fpSeq rsp rd num_runs B epw start truncated w r ≤
      fpSeq rsp rd num_runs B epw start truncated w (r + 1) := by
    intro r
    by_cases hact : posOf B epw (w * 32 + 31) r < truncated
    · rw [fpSeq_active_eq rsp rd num_runs B epw start truncated w cov hmono hcov hB hepw
        r hact]
      apply fpSeq_le_cover rsp rd num_runs B epw start truncated w cov hmono hcov hB hepw
      have := posOf_mono_t B epw (w * 32) (w * 32 + 31) r (by omega)
      omega
    · simp only [fpSeq, hact, if_false]
      exact Nat.le_refl _
  intro r r' h
  induction h with
  | refl => exact Nat.le_refl _
  | step _ ihs => exact Nat.le_trans ihs (hstep _)

theorem lt_numActiveRounds_iff (B epw truncated t r : Nat) (h : 0 < B * epw) :
    r < numActiveRounds B epw truncated t ↔ posOf B epw t r < truncated := by
  unfold numActiveRounds posOf
  rw [show r < (truncated - t * epw + B * epw - 1) / (B * epw) ↔
      r + 1 ≤ (truncated - t * epw + B * epw - 1) / (B * epw) from Iff.rfl]
  rw [Nat.le_div_iff_mul_le h]
  have e1 : (r + 1) * (B * epw) = r * (B * epw) + B * epw := by ring
  omega

theorem lt_numUpdateRounds_iff (B epw truncated length t r : Nat) (h : 0 < B * epw) :
    r < numUpdateRounds B epw truncated length t ↔
      posOf B epw t r < truncated ∧ posOf B epw t r + B * epw < length := by
  unfold numUpdateRounds
  rw [Nat.lt_min, lt_numActiveRounds_iff B epw truncated t r h]
  have h2 : r < (length - (t * epw + B * epw) + B * epw - 1) / (B * epw) ↔
      posOf B epw t r + B * epw < length := by
    rw [show r < (length - (t * epw + B * epw) + B * epw - 1) / (B * epw) ↔
        r + 1 ≤ (length - (t * epw + B * epw) + B * epw - 1) / (B * epw) from Iff.rfl]
    rw [Nat.le_div_iff_mul_le h]
    unfold posOf
    have e1 : (r + 1) * (B * epw) = r * (B * epw) + B * epw := by ring
    omega
  rw [h2]

theorem laneFinalFp_le_cover (rsp rd : Nat → Nat)
    (num_runs B epw start truncated length w lane : Nat) (cov : Nat → Nat)
    (hmono : ∀ i j, i < j → j < num_runs → rsp i < rsp j)
    (hcov : ∀ q, start ≤ q → IsCover rsp num_runs (cov q) q)
    (hB : 32 ≤ B) (hepw : 0 < epw) (hlane : lane < 32)
    (hdvd : epw ∣ truncated) (hlen : length < truncated + epw) (j : Nat) :
    laneFinalFp rsp rd num_runs B epw start truncated length w lane ≤
      cov (start + truncated + j) := by
  unfold laneFinalFp
  rcases Nat.eq_zero_or_pos (numUpdateRounds B epw truncated length (w * 32 + lane))
    with hu | hu
  · rw [hu]
    exact Nat.zero_le _
  · obtain ⟨u', hu'⟩ : ∃ u', numUpdateRounds B epw truncated length (w * 32 + lane)
        = u' + 1 := ⟨_, (Nat.succ_pred_eq_of_pos hu).symm⟩
    rw [hu']
    have hBE : 0 < B * epw := by positivity
    have hup := (lt_numUpdateRounds_iff B epw truncated length (w * 32 + lane) u'
      hBE).mp (by omega)
    obtain ⟨hupos, hguard⟩ := hup
    have hple : posOf B epw (w * 32 + 31) u' + epw ≤
        posOf B epw (w * 32 + lane) u' + B * epw := by
      unfold posOf
      have e1 : (w * 32 + 31) * epw = (w * 32 + lane) * epw + (31 - lane) * epw := by
        have : (31 - lane) + lane = 31 := by omega
        calc (w * 32 + 31) * epw = (w * 32 + lane + (31 - lane)) * epw := by
              congr 1; omega
          _ = (w * 32 + lane) * epw + (31 - lane) * epw := by ring
      have e2 : (31 - lane) * epw + epw ≤ 32 * epw := by
        have : (31 - lane) + 1 ≤ 32 := by omega
        calc (31 - lane) * epw + epw = ((31 - lane) + 1) * epw := by ring
          _ ≤ 32 * epw := Nat.mul_le_mul_right epw this
      have e3 : 32 * epw ≤ B * epw := Nat.mul_le_mul_right epw hB
      omega
    have hp31lt : posOf B epw (w * 32 + 31) u' + epw < truncated + epw := by
      omega
    have hact : posOf B epw (w * 32 + 31) u' < truncated := by omega
    rw [fpSeq_active_eq rsp rd num_runs B epw start truncated w cov hmono hcov hB hepw
      u' hact]
    refine isCover_mono rsp num_runs _ _ _ _ (hcov _ (by omega)) (hcov _ (by omega)) ?_
    -- the lane-31 position is a multiple of epw strictly below the multiple
    -- `truncated`, so it is at least epw below it
    obtain ⟨b, hb⟩ := hdvd
    have hpdvd : posOf B epw (w * 32 + 31) u' = epw * ((w * 32 + 31) + u' * B) := by
      unfold posOf; ring
    have hablt : (w * 32 + 31) + u' * B < b := by
      have := hact
      rw [hpdvd, hb] at this
      exact Nat.lt_of_mul_lt_mul_left this
    have : posOf B epw (w * 32 + 31) u' + epw ≤ truncated := by
      rw [hpdvd, hb]
      calc epw * ((w * 32 + 31) + u' * B) + epw
          = epw * ((w * 32 + 31) + u' * B + 1) := by ring
        _ ≤ epw * b := Nat.mul_le_mul_left epw (by omega)
    omega

/-- C7 counterexample: in a segment with run table start positions 0, 1
(`rsp = fun i => min i 1`, 2 runs), `B = 32`, `epw = 2`, `decompressed_length = 65`,
`truncated = 64`: after round 0 the lanes that take the broadcast update (e.g. lane
0, whose `numUpdateRounds` is 1) hold `first_possible_run_for_next_write = 1`, but
the slack re-derivation broadcasts from lane 31 — the lane that wrote the last
full-width element (`first_lane_satisfying` finds lane 31) — whose guarded update
never ran (`numUpdateRounds = 0`), so the re-derived value is 0 < 1: the variable is
not monotonically non-decreasing through the re-derivation before the slack writes. -/
theorem fp_slack_rederivation_decreases :
    laneFinalFp (fun i => min i 1) (fun i => i) 2 32 2 0 64 65 0 0 = 1 ∧
    (List.range 32).find? (fun lane => wroteLastPred 32 2 64 (0 * 32 + lane)) =
      some 31 ∧
    laneFinalFp (fun i => min i 1) (fun i => i) 2 32 2 0 64 65 0 31 = 0 ∧
    fpSeq (fun i => min i 1) (fun i => i) 2 32 2 0 64 0 1 = 1 := by
  refine ⟨by decide, by decide, by decide, by decide⟩

/-- C7 (amended): throughout one lane-group's execution,
`first_possible_run_for_next_write` starts at 0, is monotonically non-decreasing
across the full-width write rounds, and at every round is a lower bound on the index
of the run covering any position the group has yet to write; the value re-derived
before the slack writes (which, per the counterexample, may be *smaller* than values
some lanes held) is still a lower bound on the index of the run covering every slack
position. `cov q` is the index of the run covering position `q` (hypothesis `hcov`),
the run table is strictly sorted (`hmono`), the block has at least one full warp
(`hB`), and `truncated` is the `epw`-aligned part of the segment length. -/
theorem fp_state_invariants (rsp rd : Nat → Nat)
    (num_runs B epw start truncated length w : Nat) (cov : Nat → Nat)
    (hmono : ∀ i j, i < j → j < num_runs → rsp i < rsp j)
    (hcov : ∀ q, start ≤ q → IsCover rsp num_runs (cov q) q)
    (hB : 32 ≤ B) (hepw : 0 < epw)
    (hdvd : epw ∣ truncated) (hlen : length < truncated + epw) :
    fpSeq rsp rd num_runs B epw start truncated w 0 = 0 ∧
    (∀ r r', r ≤ r' → fpSeq rsp rd num_runs B epw start truncated w r ≤
      fpSeq rsp rd num_runs B epw start truncated w r') ∧
    (∀ r lane e r', r ≤ r' → lane < 32 → e < epw →
      posOf B epw (w * 32 + lane) r' < truncated →
      fpSeq rsp rd num_runs B epw start truncated w r ≤
        cov (start + posOf B epw (w * 32 + lane) r' + e)) ∧
    (∀ lane j, lane < 32 →
      laneFinalFp rsp rd num_runs B epw start truncated length w lane ≤
        cov (start + truncated + j)) := by
  refine ⟨rfl, fpSeq_mono rsp rd num_runs B epw start truncated w cov hmono hcov hB hepw,
    ?_, ?_⟩
  · intro r lane e r' hrr hlane he _
    refine Nat.le_trans
      (fpSeq_mono rsp rd num_runs B epw start truncated w cov hmono hcov hB hepw
        r r' hrr) ?_
    apply fpSeq_le_cover rsp rd num_runs B epw start truncated w cov hmono hcov hB hepw
    have := posOf_mono_t B epw (w * 32) (w * 32 + lane) r' (by omega)
    omega
  · intro lane j hlane
    exact laneFinalFp_le_cover rsp rd num_runs B epw start truncated length w lane cov
      hmono hcov hB hepw hlane hdvd hlen j

/-- C7 witness: the amended invariants instantiated on a one-run segment
(`rsp = fun i => 0`, `cov = fun i => 0`), `B = 32`, `epw = 2`, `truncated = 4`,
`length = 5`, at concrete rounds, lanes and positions. -/
theorem fp_state_invariants_witness :
    fpSeq (fun _ => 0) (fun _ => 0) 1 32 2 0 4 0 0 = 0 ∧
    fpSeq (fun _ => 0) (fun _ => 0) 1 32 2 0 4 0 0 ≤
      fpSeq (fun _ => 0) (fun _ => 0) 1 32 2 0 4 0 1 ∧
    fpSeq (fun _ => 0) (fun _ => 0) 1 32 2 0 4 0 0 ≤ 0 ∧
    laneFinalFp (fun _ => 0) (fun _ => 0) 1 32 2 0 4 5 0 31 ≤ 0 := by
  have h := fp_state_invariants (fun _ => 0) (fun _ => 0) 1 32 2 0 4 5 0 (fun _ => 0)
    (fun i j _ hj => by omega)
    (fun q _ => ⟨Nat.zero_lt_one, Nat.zero_le q, fun i hi hi1 =>
      absurd (Nat.lt_of_lt_of_le hi (Nat.lt_succ_iff.mp hi1)) (Nat.lt_irrefl 0)⟩)
    (by omega) (by omega) ⟨2, rfl⟩ (by omega)
  exact ⟨h.1, h.2.1 0 1 (by omega),
    h.2.2.1 0 0 0 0 (Nat.le_refl 0) (by omega) (by omega) (by decide),
    h.2.2.2 31 0 (by omega)⟩

/-- C3: for every work-group `g`, `resolve_segment_decompression_params` computes
`uncompressed_start_position = g * anchoring_period`; `first_run_index =
position_anchors[g]`; `decompressed_length = anchoring_period` except for the final
segment, which takes the remainder to `total_uncompressed_length`; for a non-final
segment the one-past-last run index is `position_anchors[g+1]` plus one extra run
exactly when `run_start_positions[position_anchors[g+1]]` is strictly below the next
segment's start; and in the boundary edge case — the run `i` at the next anchor
starts exactly one position before the segment boundary — segment `g`'s runs end
just past run `i` (it is included) while segment `g+1`'s `first_run_index` is that
same `i`, so the run is neither double-counted nor dropped. The hypothesis `hanch`
(anchor run indices are non-decreasing) holds for every well-formed anchor table. -/
theorem resolve_segment_params_spec (rsp anchors : Nat → Nat)
    (period num_anchors R total : Nat)
    (hanch : ∀ g, g + 1 < num_anchors → anchors g ≤ anchors (g + 1)) :
    (∀ g, (resolve_segment_decompression_params rsp anchors period num_anchors R
      total g).uncompressed_start_position = g * period) ∧
    (∀ g, (resolve_segment_decompression_params rsp anchors period num_anchors R
      total g).first_run_index = anchors g) ∧
    (∀ g, g + 1 = num_anchors →
      (resolve_segment_decompression_params rsp anchors period num_anchors R
        total g).decompressed_length = total - g * period) ∧
    (∀ g, g + 1 < num_anchors →
      (resolve_segment_decompression_params rsp anchors period num_anchors R
        total g).decompressed_length = period) ∧
    (∀ g, g + 1 < num_anchors →
      (resolve_segment_decompression_params rsp anchors period num_anchors R
          total g).first_run_index +
        (resolve_segment_decompression_params rsp anchors period num_anchors R
          total g).num_runs =
      anchors (g + 1) +
        (if rsp (anchors (g + 1)) < g * period + period then 1 else 0)) ∧
    (∀ g i, g + 1 < num_anchors → anchors (g + 1) = i →
      rsp i + 1 = g * period + period →
      (resolve_segment_decompression_params rsp anchors period num_anchors R
          total g).first_run_index +
        (resolve_segment_decompression_params rsp anchors period num_anchors R
          total g).num_runs = i + 1 ∧
      (resolve_segment_decompression_params rsp anchors period num_anchors R
        total (g + 1)).first_run_index = i) := by
  have hstart : ∀ g, (resolve_segment_decompression_params rsp anchors period
      num_anchors R total g).uncompressed_start_position = g * period :=
    fun g => rfl
  have hfr : ∀ g, (resolve_segment_decompression_params rsp anchors period
      num_anchors R total g).first_run_index = anchors g := fun g => rfl
  have hsum : ∀ g, g + 1 < num_anchors →
      (resolve_segment_decompression_params rsp anchors period num_anchors R
          total g).first_run_index +
        (resolve_segment_decompression_params rsp anchors period num_anchors R
          total g).num_runs =
      anchors (g + 1) +
        (if rsp (anchors (g + 1)) < g * period + period then 1 else 0) := by
    intro g hg
    have hbeq : (g + 1 == num_anchors) = false := by
      simp only [beq_eq_false_iff_ne]
      omega
    unfold resolve_segment_decompression_params
    simp only [hbeq, Bool.false_eq_true, if_false]
    have := hanch g hg
    by_cases hc : rsp (anchors (g + 1)) < g * period + period
    · simp only [hc, if_true]
      omega
    · simp only [hc, if_false]
      omega
  refine ⟨hstart, hfr, ?_, ?_, hsum, ?_⟩
  · intro g hg
    have hbeq : (g + 1 == num_anchors) = true := by
      simp only [beq_iff_eq]; exact hg
    unfold resolve_segment_decompression_params
    simp only [hbeq, if_true]
  · intro g hg
    have hbeq : (g + 1 == num_anchors) = false := by
      simp only [beq_eq_false_iff_ne]
      omega
    unfold resolve_segment_decompression_params
    simp only [hbeq, Bool.false_eq_true, if_false]
  · intro g i hg hi hrsp
    refine ⟨?_, by rw [hfr (g + 1), hi]⟩
    rw [hsum g hg, hi]
    have hc : rsp i < g * period + period := by omega
    simp only [hc, if_true]

/-- C3 witness: the run list [(9,1),(8,4)] (values 9,8; the second run starts at
position 1, one before the segment boundary 2) with anchoring period 2: segment 0
has `first_run_index = 0` and `num_runs = 2` (the boundary run 1 included), segment
1 has `first_run_index = 1`, segment 2 (final) has length `5 - 4 = 1`. -/
theorem resolve_segment_params_spec_witness :
    (resolve_segment_decompression_params (runStartAt [(9, 1), (8, 4)])
      (anchorsOf [(9, 1), (8, 4)] 2) 2 3 2 5 1).uncompressed_start_position = 2 ∧
    (resolve_segment_decompression_params (runStartAt [(9, 1), (8, 4)])
      (anchorsOf [(9, 1), (8, 4)] 2) 2 3 2 5 0).first_run_index = 0 ∧
    (resolve_segment_decompression_params (runStartAt [(9, 1), (8, 4)])
      (anchorsOf [(9, 1), (8, 4)] 2) 2 3 2 5 2).decompressed_length = 1 ∧
    (resolve_segment_decompression_params (runStartAt [(9, 1), (8, 4)])
      (anchorsOf [(9, 1), (8, 4)] 2) 2 3 2 5 0).decompressed_length = 2 ∧
    (resolve_segment_decompression_params (runStartAt [(9, 1), (8, 4)])
      (anchorsOf [(9, 1), (8, 4)] 2) 2 3 2 5 0).first_run_index +
      (resolve_segment_decompression_params (runStartAt [(9, 1), (8, 4)])
        (anchorsOf [(9, 1), (8, 4)] 2) 2 3 2 5 0).num_runs = 2 ∧
    (resolve_segment_decompression_params (runStartAt [(9, 1), (8, 4)])
      (anchorsOf [(9, 1), (8, 4)] 2) 2 3 2 5 1).first_run_index = 1 := by
  have h := resolve_segment_params_spec (runStartAt [(9, 1), (8, 4)])
    (anchorsOf [(9, 1), (8, 4)] 2) 2 3 2 5
    (fun g hg => by
      have hg2 : g ≤ 1 := by omega
      interval_cases g <;> decide)
  have hedge := h.2.2.2.2.2 0 1 (by omega) (by decide) (by decide)
  exact ⟨(h.1 1).trans (by decide), h.2.1 0, (h.2.2.1 2 (by decide)).trans (by decide),
    h.2.2.2.1 0 (by omega), hedge.1, hedge.2⟩

/-! ### Counting toolkit for the write-pattern theorems -/

theorem count_flatMap_range (n : Nat) (f : Nat → List Nat) (a : Nat) :
    ((List.range n).flatMap f).count a =
      ((List.range n).map (fun i => (f i).count a)).sum := by
  unfold List.flatMap
  rw [List.count_flatten, List.map_map]
  rfl

theorem sum_map_range_zero (n : Nat) (g : Nat → Nat) (h : ∀ i, i < n → g i = 0) :
    ((List.range n).map g).sum = 0 := by
  induction n with
  | zero => rfl
  | succ n ih =>
    rw [List.range_succ, List.map_append, List.sum_append]
    rw [ih (fun i hi => h i (by omega))]
    simp [h n (by omega)]

theorem sum_map_range_single (n i0 : Nat) (g : Nat → Nat) (h0 : i0 < n)
    (h1 : ∀ i, i < n → i ≠ i0 → g i = 0) :
    ((List.range n).map g).sum = g i0 := by
  induction n with
  | zero => omega
  | succ n ih =>
    rw [List.range_succ, List.map_append, List.sum_append]
    rcases Nat.lt_or_ge i0 n with hlt | hge
    · rw [ih hlt (fun i hi hne => h1 i (by omega) hne)]
      have hn : g n = 0 := h1 n (by omega) (by omega)
      simp [hn]
    · have hi0 : i0 = n := by omega
      rw [sum_map_range_zero n g (fun i hi => h1 i (by omega) (by omega))]
      simp [hi0]

theorem count_range' (s n a : Nat) :
    (List.range' s n).count a = if s ≤ a ∧ a < s + n then 1 else 0 := by
  induction n generalizing s with
  | zero =>
    rw [if_neg (by omega : ¬(s ≤ a ∧ a < s + 0))]
    rfl
  | succ n ih =>
    rw [List.range'_succ, List.count_cons, ih (s + 1)]
    simp only [beq_iff_eq]
    split_ifs <;> omega

theorem count_range (n a : Nat) :
    (List.range n).count a = if a < n then 1 else 0 := by
  rw [List.range_eq_range', count_range']
  split_ifs <;> omega

/-! ### The write pattern of one block -/

theorem threadRoundWrites_map_fst (rsp rd : Nat → Nat)
    (num_runs B epw start truncated w lane r : Nat) :
    (threadRoundWrites rsp rd num_runs B epw start truncated w lane r).map
        Prod.fst =
      if posOf B epw (w * 32 + lane) r < truncated
      then List.range' (start + posOf B epw (w * 32 + lane) r) epw
      else [] := by
  unfold threadRoundWrites
  by_cases h : posOf B epw (w * 32 + lane) r < truncated
  · simp only [h, if_true, List.map_map]
    rw [List.range'_eq_map_range]
    exact List.map_congr_left (fun e _ => rfl)
  · simp only [h, if_false, List.map_nil]

theorem threadRoundWrites_count (rsp rd : Nat → Nat)
    (num_runs B epw start truncated w lane r q : Nat) :
    ((threadRoundWrites rsp rd num_runs B epw start truncated w lane r).map
        Prod.fst).count q =
      if posOf B epw (w * 32 + lane) r < truncated ∧
          start + posOf B epw (w * 32 + lane) r ≤ q ∧
          q < start + posOf B epw (w * 32 + lane) r + epw
      then 1 else 0 := by
  rw [threadRoundWrites_map_fst]
  by_cases h : posOf B epw (w * 32 + lane) r < truncated
  · simp only [h, if_true, true_and]
    rw [count_range']
  · simp [h]

theorem posOf_add_epw_le (B epw t r truncated : Nat) (hdvd : epw ∣ truncated)
    (h : posOf B epw t r < truncated) : posOf B epw t r + epw ≤ truncated := by
  obtain ⟨b, hb⟩ := hdvd
  have hx : posOf B epw t r = epw * (t + r * B) := by unfold posOf; ring
  rw [hx, hb] at h ⊢
  have hab : t + r * B < b := Nat.lt_of_mul_lt_mul_left h
  calc epw * (t + r * B) + epw = epw * (t + r * B + 1) := by ring
    _ ≤ epw * b := Nat.mul_le_mul_left epw (by omega)

theorem blockFullWrites_count (rsp rd : Nat → Nat)
    (num_runs B epw start truncated q : Nat)
    (hB32 : 32 ∣ B) (hB : 0 < B) (hepw : 0 < epw) (hdvd : epw ∣ truncated) :
    ((blockFullWrites rsp rd num_runs B epw start truncated).map Prod.fst).count q =
      if start ≤ q ∧ q < start + truncated then 1 else 0 := by
  obtain ⟨nw, hnw⟩ := hB32
  unfold blockFullWrites
  simp only [List.map_flatMap, count_flatMap_range, threadRoundWrites_count]
  by_cases hq : start ≤ q ∧ q < start + truncated
  · -- the unique writing (warp, round, lane)
    have hdm := Nat.div_add_mod (q - start) epw
    have he : (q - start) % epw < epw := Nat.mod_lt _ hepw
    have hmt := Nat.div_add_mod ((q - start) / epw) B
    have ht0 : (q - start) / epw % B < B := Nat.mod_lt _ hB
    have htw := Nat.div_add_mod ((q - start) / epw % B) 32
    have hl0 : (q - start) / epw % B % 32 < 32 := Nat.mod_lt _ (by omega)
    set m := (q - start) / epw with hm
    set e := (q - start) % epw with heq
    set t0 := m % B with ht0d
    set r0 := m / B with hr0d
    set w0 := t0 / 32 with hw0d
    set l0 := t0 % 32 with hl0d
    have hw0 : w0 < B / 32 := by
      rw [hnw, Nat.mul_div_cancel_left _ (by omega : (0:Nat) < 32)]
      rw [hw0d]
      exact (Nat.div_lt_iff_lt_mul (by omega : (0:Nat) < 32)).mpr (by omega)
    have hflip : m * epw = epw * m := by ring
    have hmlt : m * epw ≤ q - start ∧ q - start < m * epw + epw := by
      constructor <;> omega
    have hr0 : r0 < numRounds B epw truncated := by
      unfold numRounds
      rw [show r0 < (truncated + B * epw - 1) / (B * epw) ↔
          r0 + 1 ≤ (truncated + B * epw - 1) / (B * epw) from Iff.rfl]
      rw [Nat.le_div_iff_mul_le (by positivity)]
      have e1 : (r0 + 1) * (B * epw) = B * r0 * epw + B * epw := by ring
      have e2 : B * r0 * epw ≤ m * epw := Nat.mul_le_mul_right epw (by omega)
      omega
    have hcondpos : posOf B epw (w0 * 32 + l0) r0 = m * epw := by
      unfold posOf
      have h1 : w0 * 32 + l0 = t0 := by omega
      rw [h1]
      have h2 : t0 * epw + r0 * (B * epw) = (t0 + B * r0) * epw := by ring
      have h3 : t0 + B * r0 = m := by omega
      rw [h2, h3]
    have huniq : ∀ w r lane, w < B / 32 → lane < 32 →
        posOf B epw (w * 32 + lane) r < truncated →
        start + posOf B epw (w * 32 + lane) r ≤ q →
        q < start + posOf B epw (w * 32 + lane) r + epw →
        w = w0 ∧ r = r0 ∧ lane = l0 := by
      intro w r lane hw hlane hact hle hlt
      have hx : posOf B epw (w * 32 + lane) r = (w * 32 + lane + r * B) * epw := by
        unfold posOf; ring
      rw [hx] at hact hle hlt
      have hxm : w * 32 + lane + r * B = m := by
        have hA : (w * 32 + lane + r * B) * epw < (m + 1) * epw := by
          have e1 : (m + 1) * epw = m * epw + epw := by ring
          omega
        have hBb : m * epw < (w * 32 + lane + r * B + 1) * epw := by
          have e1 : (w * 32 + lane + r * B + 1) * epw =
            (w * 32 + lane + r * B) * epw + epw := by ring
          omega
        have h1 := Nat.lt_of_mul_lt_mul_right hA
        have h2 := Nat.lt_of_mul_lt_mul_right hBb
        omega
      have htB : w * 32 + lane < B := by
        rw [hnw, Nat.mul_div_cancel_left _ (by omega : (0:Nat) < 32)] at hw
        have h1 : (w + 1) * 32 ≤ nw * 32 := Nat.mul_le_mul_right 32 hw
        have e1 : (w + 1) * 32 = w * 32 + 32 := by ring
        have e2 : nw * 32 = 32 * nw := by ring
        omega
      have hrr : r = r0 := by
        rw [hr0d, ← hxm, show w * 32 + lane + r * B = (w * 32 + lane) + r * B from rfl,
          Nat.add_mul_div_right _ _ hB, Nat.div_eq_of_lt htB]
        omega
      have htt : w * 32 + lane = t0 := by
        rw [ht0d, ← hxm, Nat.add_mul_mod_self_right, Nat.mod_eq_of_lt htB]
      have hww : w = w0 := by
        rw [hw0d, ← htt, show w * 32 + lane = lane + w * 32 from by omega,
          Nat.add_mul_div_right _ _ (by omega : (0:Nat) < 32), Nat.div_eq_of_lt hlane]
        omega
      have hll : lane = l0 := by
        rw [hl0d, ← htt, show w * 32 + lane = lane + w * 32 from by omega,
          Nat.add_mul_mod_self_right, Nat.mod_eq_of_lt hlane]
      exact ⟨hww, hrr, hll⟩
    rw [if_pos hq]
    rw [sum_map_range_single (B / 32) w0 _ hw0 (fun w hw hne =>
      sum_map_range_zero _ _ (fun r hr =>
        sum_map_range_zero _ _ (fun lane hlane => by
          rw [if_neg]
          intro ⟨h1, h2, h3⟩
          exact hne (huniq w r lane hw hlane h1 h2 h3).1)))]
    rw [sum_map_range_single (numRounds B epw truncated) r0 _ hr0 (fun r hr hne =>
      sum_map_range_zero _ _ (fun lane hlane => by
        rw [if_neg]
        intro ⟨h1, h2, h3⟩
        exact hne (huniq w0 r lane hw0 hlane h1 h2 h3).2.1))]
    rw [sum_map_range_single 32 l0 _ hl0 (fun lane hlane hne => by
      rw [if_neg]
      intro ⟨h1, h2, h3⟩
      exact hne (huniq w0 r0 lane hw0 hlane h1 h2 h3).2.2)]
    have hme : m * epw = epw * m := by ring
    rw [if_pos ⟨by rw [hcondpos]; omega, by rw [hcondpos]; omega,
      by rw [hcondpos]; omega⟩]
  · rw [if_neg hq]
    refine sum_map_range_zero _ _ (fun w hw =>
      sum_map_range_zero _ _ (fun r hr =>
        sum_map_range_zero _ _ (fun lane hlane => ?_)))
    rw [if_neg]
    intro ⟨h1, h2, h3⟩
    have := posOf_add_epw_le B epw (w * 32 + lane) r truncated hdvd h1
    omega

theorem find?_range_eq_none (n : Nat) (p : Nat → Bool)
    (h : ∀ i, i < n → p i = false) : (List.range n).find? p = none := by
  rw [List.find?_eq_none]
  intro x hx
  rw [List.mem_range] at hx
  rw [h x hx]
  simp

theorem find?_range'_eq_some (p : Nat → Bool) :
    ∀ (n s i0 : Nat), s ≤ i0 → i0 < s + n → p i0 = true →
      (∀ i, s ≤ i → i < i0 → p i = false) →
      (List.range' s n).find? p = some i0 := by
  intro n
  induction n with
  | zero => intro s i0 h1 h2; omega
  | succ n ih =>
    intro s i0 h1 h2 hp hprev
    rw [List.range'_succ]
    by_cases hs : i0 = s
    · rw [List.find?_cons_of_pos _ (by rw [← hs]; exact hp), hs]
    · have hps : p s = false := hprev s (Nat.le_refl s) (by omega)
      rw [List.find?_cons_of_neg _ (by rw [hps]; simp)]
      exact ih (s + 1) i0 (by omega) (by omega) hp (fun i hi1 hi2 => hprev i (by omega) hi2)

theorem find?_range_eq_some (n i0 : Nat) (p : Nat → Bool) (h0 : i0 < n)
    (hp : p i0 = true) (hprev : ∀ i, i < i0 → p i = false) :
    (List.range n).find? p = some i0 := by
  rw [List.range_eq_range']
  exact find?_range'_eq_some p n 0 i0 (Nat.zero_le _) (by omega) hp
    (fun i _ hi => hprev i hi)

theorem findIdx_range'_eq (p : Nat → Bool) (hp : ∀ i j, i ≤ j → p i = true → p j = true) :
    ∀ (n s i0 : Nat), s ≤ i0 → i0 < s + n → p i0 = true →
      (∀ i, i < i0 → p i = false) →
      (List.range' s n).findIdx p = i0 - s := by
  intro n
  induction n with
  | zero => intro s i0 h1 h2; omega
  | succ n ih =>
    intro s i0 h1 h2 hpi hprev
    rw [List.range'_succ, List.findIdx_cons]
    by_cases hs : i0 ≤ s
    · have he : i0 = s := by omega
      rw [← he, hpi]
      simp [he]
    · have hps : p s = false := hprev s (by omega)
      rw [hps]
      simp only [cond_false]
      rw [ih (s + 1) i0 (by omega) (by omega) hpi hprev]
      omega

theorem log2_constexpr_pow (k : Nat) (hk : k < 32) : log2_constexpr (2 ^ k) = k := by
  unfold log2_constexpr
  rw [List.range_eq_range']
  rw [findIdx_range'_eq (fun j => decide (2 ^ k < 2 ^ (j + 1)))
    (fun i j hij hi => by
      simp only [decide_eq_true_eq] at hi ⊢
      calc 2 ^ k < 2 ^ (i + 1) := hi
        _ ≤ 2 ^ (j + 1) := Nat.pow_le_pow_right (by omega) (by omega))
    32 0 k (Nat.zero_le k) (by omega)
    (by simp only [decide_eq_true_eq]; exact Nat.pow_lt_pow_right (by omega) (by omega))
    (fun i hi => by
      simp only [decide_eq_false_iff_not, Nat.not_lt]
      exact Nat.pow_le_pow_right (by omega) (by omega))]
  omega

theorem clear_lower_pow (len k : Nat) (hk : k < 32) :
    clear_lower_k_bits len (log2_constexpr (2 ^ k)) = 2 ^ k * (len / 2 ^ k) := by
  rw [log2_constexpr_pow k hk]
  rfl

theorem wroteLastPred_iff (B epw truncated t : Nat) (hB : 0 < B) (hepw : 0 < epw)
    (htr : 0 < truncated) (hdvd : epw ∣ truncated) (htB : t < B) :
    wroteLastPred B epw truncated t = true ↔ t = (truncated / epw - 1) % B := by
  obtain ⟨c, hc⟩ := hdvd
  have hc1 : 0 < c := by
    rcases Nat.eq_zero_or_pos c with h | h
    · rw [h, Nat.mul_zero] at hc; omega
    · exact h
  have hdivc : truncated / epw = c := by rw [hc]; exact Nat.mul_div_cancel_left c hepw
  rw [hdivc]
  have hBE : 0 < B * epw := by positivity
  have hcm : (c - 1) * epw + epw = c * epw := by
    calc (c - 1) * epw + epw = ((c - 1) + 1) * epw := by ring
      _ = c * epw := by rw [Nat.sub_add_cancel hc1]
  have htc : truncated = c * epw := by rw [hc]; ring
  unfold wroteLastPred
  rw [beq_iff_eq]
  constructor
  · intro heq
    have ha1 : 1 ≤ numActiveRounds B epw truncated t := by
      by_contra h0
      have ha0 : numActiveRounds B epw truncated t = 0 := by omega
      rw [ha0] at heq
      unfold posOf at heq
      have h1 : t * epw + epw ≤ B * epw := by
        calc t * epw + epw = (t + 1) * epw := by ring
          _ ≤ B * epw := Nat.mul_le_mul_right epw (by omega)
      have h2 : epw ≤ truncated := by
        rw [htc]
        calc epw = 1 * epw := by ring
          _ ≤ c * epw := Nat.mul_le_mul_right epw hc1
      have h3 : (0 : Nat) * (B * epw) = 0 := by ring
      have h4 : epw * B = B * epw := by ring
      omega
    have hkey : t + numActiveRounds B epw truncated t * B = c - 1 + B := by
      have hexp : posOf B epw t (numActiveRounds B epw truncated t) =
          (t + numActiveRounds B epw truncated t * B) * epw := by
        unfold posOf; ring
      rw [hexp] at heq
      have hrhs : truncated - epw + epw * B = (c - 1 + B) * epw := by
        have e1 : (c - 1 + B) * epw = (c - 1) * epw + B * epw := by ring
        have e4 : epw * B = B * epw := by ring
        omega
      rw [hrhs] at heq
      exact Nat.eq_of_mul_eq_mul_right hepw heq
    have hkey2 : t + (numActiveRounds B epw truncated t - 1) * B = c - 1 := by
      have e1 : numActiveRounds B epw truncated t * B =
          (numActiveRounds B epw truncated t - 1) * B + B := by
        calc numActiveRounds B epw truncated t * B
            = ((numActiveRounds B epw truncated t - 1) + 1) * B := by
              rw [Nat.sub_add_cancel ha1]
          _ = (numActiveRounds B epw truncated t - 1) * B + B := by ring
      omega
    rw [← hkey2, Nat.add_mul_mod_self_right, Nat.mod_eq_of_lt htB]
  · intro ht
    have hmt := Nat.div_add_mod (c - 1) B
    have hcomm : (c - 1) / B * B = B * ((c - 1) / B) := by ring
    have hub : numActiveRounds B epw truncated t ≤ (c - 1) / B + 1 := by
      by_contra hgt
      push_neg at hgt
      have hlt := (lt_numActiveRounds_iff B epw truncated t ((c - 1) / B + 1)
        hBE).mp (by omega)
      unfold posOf at hlt
      have e1 : t * epw + ((c - 1) / B + 1) * (B * epw) =
          (t + (c - 1) / B * B + B) * epw := by ring
      have e2 : t + (c - 1) / B * B = c - 1 := by rw [ht]; omega
      have e12 : t * epw + ((c - 1) / B + 1) * (B * epw) = (c - 1 + B) * epw := by
        rw [e1, e2]
      have e3 : (c - 1 + B) * epw = (c - 1) * epw + B * epw := by ring
      have e6 : epw ≤ B * epw := by
        calc epw = 1 * epw := by ring
          _ ≤ B * epw := Nat.mul_le_mul_right epw hB
      omega
    have hlb : (c - 1) / B < numActiveRounds B epw truncated t := by
      rw [lt_numActiveRounds_iff B epw truncated t ((c - 1) / B) hBE]
      unfold posOf
      have e1 : t * epw + (c - 1) / B * (B * epw) = (t + (c - 1) / B * B) * epw := by
        ring
      have e2 : t + (c - 1) / B * B = c - 1 := by rw [ht]; omega
      have e12 : t * epw + (c - 1) / B * (B * epw) = (c - 1) * epw := by rw [e1, e2]
      omega
    have haa : numActiveRounds B epw truncated t = (c - 1) / B + 1 := by omega
    rw [haa]
    unfold posOf
    have e1 : t * epw + ((c - 1) / B + 1) * (B * epw) =
        (t + (c - 1) / B * B) * epw + B * epw := by ring
    have e2 : t + (c - 1) / B * B = c - 1 := by rw [ht]; omega
    have e12 : t * epw + ((c - 1) / B + 1) * (B * epw) = (c - 1) * epw + B * epw := by
      rw [e1, e2]
    have e4 : epw * B = B * epw := by ring
    omega

theorem blockSlackWrites_count (rsp rd : Nat → Nat)
    (num_runs B epw start truncated length q : Nat)
    (hB32 : 32 ∣ B) (hB : 0 < B) (hepw : 0 < epw)
    (hdvd : epw ∣ truncated) (htl : truncated ≤ length)
    (hone : epw = 1 → truncated = length) :
    ((blockSlackWrites rsp rd num_runs B epw start truncated length).map
        Prod.fst).count q =
      if start + truncated ≤ q ∧ q < start + length then 1 else 0 := by
  obtain ⟨nw, hnw⟩ := hB32
  unfold blockSlackWrites
  by_cases h1 : 1 < epw
  · simp only [h1, if_true]
    by_cases h2 : length - truncated = 0
    · rw [if_pos h2]
      simp only [List.map_nil, List.count_nil]
      rw [if_neg (by omega)]
    · rw [if_neg h2]
      by_cases h3 : truncated = 0
      · rw [if_pos h3]
        rw [List.map_map]
        have hmap : (Prod.fst ∘ fun j =>
            (start + j, rd (runSearchFrom rsp num_runs (start + j) (0 + 1) - 1))) =
            fun j => start + j := by
          funext j; rfl
        rw [hmap, ← List.range'_eq_map_range, count_range', h3]
        split_ifs <;> omega
      · rw [if_neg h3]
        have htr0 : 0 < truncated := by omega
        have hpredIff : ∀ u, u < B →
            (wroteLastPred B epw truncated u = true ↔
              u = (truncated / epw - 1) % B) :=
          fun u hu => wroteLastPred_iff B epw truncated u hB hepw htr0 hdvd hu
        have hpredFalse : ∀ u, u < B → u ≠ (truncated / epw - 1) % B →
            wroteLastPred B epw truncated u = false := by
          intro u hu hne
          rcases Bool.eq_false_or_eq_true (wroteLastPred B epw truncated u) with h | h
          · exact absurd ((hpredIff u hu).mp h) hne
          · exact h
        have htB : (truncated / epw - 1) % B < B := Nat.mod_lt _ hB
        have htdm := Nat.div_add_mod ((truncated / epw - 1) % B) 32
        have hcm32 : (truncated / epw - 1) % B / 32 * 32 =
            32 * ((truncated / epw - 1) % B / 32) := by ring
        have hdivlt : ∀ u, u < B → u / 32 < B / 32 := by
          intro u hu
          rw [hnw, Nat.mul_div_cancel_left _ (by omega : (0:Nat) < 32)]
          rw [hnw] at hu
          exact (Nat.div_lt_iff_lt_mul (by omega : (0:Nat) < 32)).mpr (by omega)
        have hlB : ∀ w lane, w < B / 32 → lane < 32 → w * 32 + lane < B := by
          intro w lane hw hlane
          rw [hnw, Nat.mul_div_cancel_left _ (by omega : (0:Nat) < 32)] at hw
          have hh : (w + 1) * 32 ≤ nw * 32 := Nat.mul_le_mul_right 32 hw
          have e1 : (w + 1) * 32 = w * 32 + 32 := by ring
          have e2 : nw * 32 = 32 * nw := by ring
          omega
        have hws : (truncated / epw - 1) % B / 32 < B / 32 := hdivlt _ htB
        have hfindw : ∀ w, w < B / 32 →
            (List.range 32).find?
                (fun lane => wroteLastPred B epw truncated (w * 32 + lane)) =
              if w = (truncated / epw - 1) % B / 32
              then some ((truncated / epw - 1) % B % 32) else none := by
          intro w hw
          by_cases hww : w = (truncated / epw - 1) % B / 32
          · rw [if_pos hww]
            apply find?_range_eq_some 32 _ _ (Nat.mod_lt _ (by omega))
            · apply (hpredIff _ (hlB w _ hw (Nat.mod_lt _ (by omega)))).mpr
              rw [hww]
              omega
            · intro i hi
              apply hpredFalse _ (hlB w i hw (by omega))
              intro hcon
              rw [hww] at hcon
              omega
          · rw [if_neg hww]
            apply find?_range_eq_none
            intro lane hlane
            apply hpredFalse _ (hlB w lane hw hlane)
            intro hcon
            have : w = (truncated / epw - 1) % B / 32 := by
              rw [← hcon, show w * 32 + lane = lane + w * 32 from by omega,
                Nat.add_mul_div_right _ _ (by omega : (0:Nat) < 32),
                Nat.div_eq_of_lt hlane]
              omega
            exact hww this
        rw [List.map_flatMap, count_flatMap_range]
        rw [sum_map_range_single (B / 32) ((truncated / epw - 1) % B / 32) _ hws
          (fun w hw hne => by
            rw [hfindw w hw, if_neg hne]
            rfl)]
        rw [hfindw _ hws, if_pos rfl]
        rw [List.map_map]
        have hmap : (Prod.fst ∘ fun j => (start + truncated + j,
            rd (runSearchFrom rsp num_runs (start + truncated + j)
              (laneFinalFp rsp rd num_runs B epw start truncated length
                ((truncated / epw - 1) % B / 32)
                ((truncated / epw - 1) % B % 32) + 1) - 1))) =
            fun j => start + truncated + j := by
          funext j; rfl
        rw [hmap, ← List.range'_eq_map_range, count_range']
        split_ifs <;> omega
  · have he1 : epw = 1 := by omega
    have hteq : truncated = length := hone he1
    simp only [h1, if_false, List.map_nil, List.count_nil]
    rw [if_neg (by omega)]

theorem resolve_start_eq (rsp anchors : Nat → Nat)
    (period num_anchors R total g : Nat) :
    (resolve_segment_decompression_params rsp anchors period num_anchors R total
      g).uncompressed_start_position = g * period := rfl

theorem resolve_len_eq (rsp anchors : Nat → Nat)
    (period num_anchors R total g : Nat) :
    (resolve_segment_decompression_params rsp anchors period num_anchors R total
        g).decompressed_length =
      if g + 1 = num_anchors then total - g * period else period := by
  unfold resolve_segment_decompression_params
  by_cases h : g + 1 = num_anchors
  · have hb : (g + 1 == num_anchors) = true := by simp [h]
    simp only [hb, if_true, h]
    simp
  · have hb : (g + 1 == num_anchors) = false := by simp [h]
    simp only [hb, Bool.false_eq_true, if_false, h]

theorem blockWrites_count (rsp rd anchors : Nat → Nat)
    (period num_anchors R total B k g q : Nat)
    (hB32 : 32 ∣ B) (hB : 0 < B) (hk : k < 32) :
    ((blockWrites rsp rd anchors period num_anchors R total B (2 ^ k) g).map
        Prod.fst).count q =
      if g * period ≤ q ∧ q < g * period +
          (resolve_segment_decompression_params rsp anchors period num_anchors R
            total g).decompressed_length
      then 1 else 0 := by
  have hepw : 0 < 2 ^ k := Nat.pos_pow_of_pos k (by omega)
  have hdm := Nat.div_add_mod ((resolve_segment_decompression_params rsp anchors
    period num_anchors R total g).decompressed_length) (2 ^ k)
  have hmod := Nat.mod_lt ((resolve_segment_decompression_params rsp anchors
    period num_anchors R total g).decompressed_length) hepw
  unfold blockWrites
  simp only [List.map_append, List.count_append]
  rw [clear_lower_pow _ k hk]
  rw [blockFullWrites_count _ _ _ _ _ _ _ _ hB32 hB hepw ⟨_, rfl⟩]
  rw [blockSlackWrites_count _ _ _ _ _ _ _ _ _ hB32 hB hepw ⟨_, rfl⟩ (by omega)
    (fun h1 => by rw [h1, Nat.one_mul, Nat.div_one])]
  rw [resolve_start_eq]
  split_ifs <;> omega

theorem kernelWrites_count (rsp rd anchors : Nat → Nat)
    (period R total B k q : Nat)
    (hper : 0 < period) (hB32 : 32 ∣ B) (hB : 0 < B) (hk : k < 32) :
    ((kernelWrites rsp rd anchors period ((total + period - 1) / period) R total B
        (2 ^ k)).map Prod.fst).count q =
      if q < total then 1 else 0 := by
  have hdmq := Nat.div_add_mod q period
  have hmodq := Nat.mod_lt q hper
  have hdmt := Nat.div_add_mod (total + period - 1) period
  have hmodt := Nat.mod_lt (total + period - 1) hper
  have hcmq : q / period * period = period * (q / period) := by ring
  -- total ≤ num_anchors * period
  have htot : total ≤ (total + period - 1) / period * period := by
    have e1 : (total + period - 1) / period * period =
      period * ((total + period - 1) / period) := by ring
    omega
  -- a non-final segment ends at or before total
  have hnonfinal : ∀ g, g + 1 < (total + period - 1) / period →
      g * period + period ≤ total := by
    intro g hg
    have h2 : g + 2 ≤ (total + period - 1) / period := by omega
    have h3 := (Nat.le_div_iff_mul_le hper).mp h2
    have e1 : (g + 2) * period = g * period + period + period := by ring
    omega
  unfold kernelWrites
  rw [List.map_flatMap, count_flatMap_range]
  by_cases hq : q < total
  · have htpos : 0 < total := by omega
    have hg0 : q / period < (total + period - 1) / period := by
      rw [show q / period < (total + period - 1) / period ↔
        q / period + 1 ≤ (total + period - 1) / period from Iff.rfl]
      rw [Nat.le_div_iff_mul_le hper]
      have e1 : (q / period + 1) * period = q / period * period + period := by ring
      omega
    rw [if_pos hq]
    rw [sum_map_range_single ((total + period - 1) / period) (q / period) _ hg0
      (fun g hgn hgne => by
        rw [blockWrites_count rsp rd anchors period _ R total B k g q hB32 hB hk]
        rw [if_neg]
        rw [resolve_len_eq]
        rcases Nat.lt_or_ge g (q / period) with hglt | hgge
        · -- an earlier segment: it is non-final and ends at g*period+period ≤ q
          have hgnf : g + 1 < (total + period - 1) / period := by omega
          rw [if_neg (by omega)]
          intro ⟨hc1, hc2⟩
          have e2 : (g + 1) * period ≤ q / period * period :=
            Nat.mul_le_mul_right period (by omega)
          have e3 : (g + 1) * period = g * period + period := by ring
          omega
        · -- a later segment starts after q
          have hggt : q / period < g := by omega
          intro hcc
          have hc1 := hcc.1
          have e2 : (q / period + 1) * period ≤ g * period :=
            Nat.mul_le_mul_right period (by omega)
          have e3 : (q / period + 1) * period = q / period * period + period := by
            ring
          omega)]
    rw [blockWrites_count rsp rd anchors period _ R total B k _ q hB32 hB hk]
    rw [resolve_len_eq]
    rw [if_pos]
    by_cases hfin : q / period + 1 = (total + period - 1) / period
    · rw [if_pos hfin]
      omega
    · rw [if_neg hfin]
      omega
  · rw [if_neg hq]
    refine sum_map_range_zero _ _ (fun g hgn => ?_)
    rw [blockWrites_count rsp rd anchors period _ R total B k g q hB32 hB hk]
    rw [if_neg]
    rw [resolve_len_eq]
    by_cases hfin : g + 1 = (total + period - 1) / period
    · rw [if_pos hfin]
      intro ⟨hc1, hc2⟩
      omega
    · rw [if_neg hfin]
      have := hnonfinal g (by omega)
      intro ⟨hc1, hc2⟩
      omega

/-- C2: for every block size `B` (a positive multiple of the warp size), element
width (`epw = 2^k` packed sub-elements per thread write) and run/anchor tables, each
work-group `g` writes exactly its segment — the positions it writes are a
permutation of `[g * anchoring_period, g * anchoring_period + decompressed_length)`,
so it writes exactly `decompressed_length` positions, each exactly once by exactly
one lane — and over the whole grid (one work-group per anchored segment,
`num_anchors = ⌈total / period⌉`) the written positions are exactly
`[0, uncompressed_length)` with no gaps and no overlaps (a permutation of
`range total`). -/
theorem rpe_writes_partition (rsp rd anchors : Nat → Nat)
    (period R total B k : Nat)
    (hper : 0 < period) (hB32 : 32 ∣ B) (hB : 0 < B) (hk : k < 32) :
    (∀ g, ((blockWrites rsp rd anchors period ((total + period - 1) / period) R
        total B (2 ^ k) g).map Prod.fst).Perm
      (List.range' (g * period)
        ((resolve_segment_decompression_params rsp anchors period
          ((total + period - 1) / period) R total g).decompressed_length))) ∧
    ((kernelWrites rsp rd anchors period ((total + period - 1) / period) R total B
        (2 ^ k)).map Prod.fst).Perm (List.range total) := by
  constructor
  · intro g
    rw [List.perm_iff_count]
    intro a
    rw [blockWrites_count rsp rd anchors period _ R total B k g a hB32 hB hk]
    rw [count_range']
  · rw [List.perm_iff_count]
    intro a
    rw [kernelWrites_count rsp rd anchors period R total B k a hper hB32 hB hk]
    rw [count_range]

/-- C2 witness: with anchoring period 2, total length 5 (3 segments), `B = 32`,
`epw = 2`: work-group 1's written positions are a permutation of `[2, 4)` and the
grid's written positions are a permutation of `[0, 5)`. -/
theorem rpe_writes_partition_witness :
    ((blockWrites (fun _ => 0) (fun _ => 0) (fun _ => 0) 2 3 1 5 32 (2 ^ 1) 1).map
        Prod.fst).Perm
      (List.range' 2
        ((resolve_segment_decompression_params (fun _ => 0) (fun _ => 0) 2 3 1 5
          1).decompressed_length)) ∧
    ((kernelWrites (fun _ => 0) (fun _ => 0) (fun _ => 0) 2 3 1 5 32 (2 ^ 1)).map
        Prod.fst).Perm (List.range 5) := by
  have h := rpe_writes_partition (fun _ => 0) (fun _ => 0) (fun _ => 0) 2 1 5 32 1
    (by omega) ⟨1, rfl⟩ (by omega) (by omega)
  exact ⟨h.1 1, h.2⟩

/-! ### The encoder's tables are valid, and decoding recovers the array -/

theorem runStartAt_cons (rv : Nat × Nat) (rest : List (Nat × Nat)) (i : Nat) :
    runStartAt (rv :: rest) (i + 1) = rv.2 + runStartAt rest i := by
  unfold runStartAt
  rw [List.take_succ_cons, List.map_cons, List.sum_cons]

theorem originalOf_length (runs : List (Nat × Nat)) :
    (originalOf runs).length = runStartAt runs runs.length := by
  induction runs with
  | nil => rfl
  | cons rv rest ih =>
    show (originalOf (rv :: rest)).length = runStartAt (rv :: rest) (rest.length + 1)
    unfold originalOf
    rw [List.flatMap_cons, List.length_append, List.length_replicate, runStartAt_cons]
    unfold originalOf at ih
    rw [ih]

theorem runStartAt_mono (runs : List (Nat × Nat)) (h1 : ∀ rv ∈ runs, 0 < rv.2) :
    ∀ i j, i < j → j ≤ runs.length → runStartAt runs i < runStartAt runs j := by
  induction runs with
  | nil => intro i j hij hj; simp at hj; omega
  | cons rv rest ih =>
    intro i j hij hj
    match j, hj with
    | j + 1, hj =>
      rw [runStartAt_cons]
      match i with
      | 0 =>
        have : 0 < rv.2 := h1 rv (by simp)
        show runStartAt (rv :: rest) 0 < _
        unfold runStartAt
        simp only [List.take_zero, List.map_nil, List.sum_nil]
        omega
      | i + 1 =>
        rw [runStartAt_cons]
        have := ih (fun x hx => h1 x (by simp [hx])) i j (by omega) (by simpa using hj)
        omega

theorem originalOf_getElem? (runs : List (Nat × Nat))
    (h1 : ∀ rv ∈ runs, 0 < rv.2) :
    ∀ (p c : Nat), p < (originalOf runs).length →
      IsCover (runStartAt runs) runs.length c p →
      (originalOf runs)[p]? = some (runValueAt runs c) := by
  induction runs with
  | nil => intro p c hp; simp [originalOf] at hp
  | cons rv rest ih =>
    intro p c hp hc
    obtain ⟨hcR, hcle, hcgt⟩ := hc
    have hsplit : originalOf (rv :: rest) = List.replicate rv.2 rv.1 ++ originalOf rest := by
      unfold originalOf
      rw [List.flatMap_cons]
    rw [hsplit]
    by_cases hpfirst : p < rv.2
    · -- covered by run 0
      have hc0 : c = 0 := by
        by_contra hne
        have hc1 : 1 ≤ c := by omega
        have : rv.2 ≤ runStartAt (rv :: rest) c := by
          match c, hc1 with
          | c + 1, _ =>
            rw [runStartAt_cons]
            omega
        omega
      subst hc0
      rw [List.getElem?_append_left (by simpa using hpfirst)]
      rw [List.getElem?_eq_getElem (by simpa using hpfirst)]
      rw [List.getElem_replicate]
      rfl
    · -- covered by a later run
      have hp2 : rv.2 ≤ p := by omega
      have hlen : (List.replicate rv.2 rv.1).length = rv.2 := List.length_replicate ..
      rw [List.getElem?_append_right (by omega)]
      rw [hlen]
      have hcpos : 1 ≤ c := by
        by_contra h0
        have hc0 : c = 0 := by omega
        subst hc0
        rcases Nat.eq_zero_or_pos rest.length with hr | hr
        · -- no further runs: p is beyond the whole array
          have := originalOf_length (rv :: rest)
          have h2 : runStartAt (rv :: rest) (rv :: rest).length = rv.2 +
              runStartAt rest rest.length := by
            show runStartAt (rv :: rest) (rest.length + 1) = _
            rw [runStartAt_cons]
          have h3 : runStartAt rest rest.length = 0 := by
            rw [hr]; rfl
          omega
        · have := hcgt 1 (by omega) (by simpa using hr)
          rw [runStartAt_cons] at this
          unfold runStartAt at this
          simp only [List.take_zero, List.map_nil, List.sum_nil] at this
          omega
      match c, hcpos with
      | c + 1, _ =>
        have hcov' : IsCover (runStartAt rest) rest.length c (p - rv.2) := by
          refine ⟨by simpa using hcR, ?_, ?_⟩
          · rw [runStartAt_cons] at hcle; omega
          · intro i hi hiR
            have := hcgt (i + 1) (by omega) (by simpa using hiR)
            rw [runStartAt_cons] at this
            omega
        have hplen : p - rv.2 < (originalOf rest).length := by
          have htot := originalOf_length (rv :: rest)
          have htot2 := originalOf_length rest
          have h2 : runStartAt (rv :: rest) (rv :: rest).length = rv.2 +
              runStartAt rest rest.length := by
            show runStartAt (rv :: rest) (rest.length + 1) = _
            rw [runStartAt_cons]
          omega
        rw [ih (fun x hx => h1 x (by simp [hx])) (p - rv.2) c hplen hcov']
        rfl

theorem applyWrites_length (ws : List (Nat × Nat)) :
    ∀ buf : List Nat, (applyWrites ws buf).length = buf.length := by
  induction ws with
  | nil => intro buf; rfl
  | cons pv rest ih =>
    intro buf
    show (applyWrites rest (buf.set pv.1 pv.2)).length = _
    rw [ih (buf.set pv.1 pv.2), List.length_set]

theorem applyWrites_getElem?_of_not_mem (ws : List (Nat × Nat)) :
    ∀ (buf : List Nat) (p : Nat), p ∉ ws.map Prod.fst →
      (applyWrites ws buf)[p]? = buf[p]? := by
  induction ws with
  | nil => intro buf p _; rfl
  | cons pv rest ih =>
    intro buf p hmem
    rw [List.map_cons, List.mem_cons] at hmem
    push_neg at hmem
    show (applyWrites rest (buf.set pv.1 pv.2))[p]? = _
    rw [ih (buf.set pv.1 pv.2) p hmem.2]
    rw [List.getElem?_set_ne (fun h => hmem.1 h.symm)]

theorem applyWrites_getElem?_of_mem (ws : List (Nat × Nat)) (f : Nat → Nat) :
    ∀ (buf : List Nat) (p : Nat), p ∈ ws.map Prod.fst → p < buf.length →
      (∀ pv, pv ∈ ws → pv.2 = f pv.1) →
      (applyWrites ws buf)[p]? = some (f p) := by
  induction ws with
  | nil => intro buf p hmem; simp at hmem
  | cons pv rest ih =>
    intro buf p hmem hp hv
    show (applyWrites rest (buf.set pv.1 pv.2))[p]? = _
    by_cases hrest : p ∈ rest.map Prod.fst
    · exact ih (buf.set pv.1 pv.2) p hrest (by rw [List.length_set]; exact hp)
        (fun x hx => hv x (by simp [hx]))
    · have hpv : p = pv.1 := by
        rw [List.map_cons, List.mem_cons] at hmem
        rcases hmem with h | h
        · exact h
        · exact absurd h hrest
      rw [applyWrites_getElem?_of_not_mem rest (buf.set pv.1 pv.2) p hrest]
      rw [hpv, List.getElem?_set_self (by omega)]
      rw [hv pv (by simp)]

theorem getD_map_range (n e d : Nat) (f : Nat → Nat) (he : e < n) :
    ((List.range n).map f).getD e d = f e := by
  rw [List.getD_eq_getElem?_getD, List.getElem?_map, List.getElem?_range he]
  rfl

theorem lt_ceilDiv_iff (x p k : Nat) (hp : 0 < p) :
    k < (x + p - 1) / p ↔ k * p < x := by
  rw [show k < (x + p - 1) / p ↔ k + 1 ≤ (x + p - 1) / p from Iff.rfl,
    Nat.le_div_iff_mul_le hp]
  have e1 : (k + 1) * p = k * p + p := by ring
  omega

theorem resolve_fr_eq (rsp anchors : Nat → Nat) (period num_anchors R total g : Nat) :
    (resolve_segment_decompression_params rsp anchors period num_anchors R total
      g).first_run_index = anchors g := rfl

theorem resolve_num_runs_final (rsp anchors : Nat → Nat)
    (period num_anchors R total g : Nat) (h : g + 1 = num_anchors) :
    (resolve_segment_decompression_params rsp anchors period num_anchors R total
      g).num_runs = R - anchors g := by
  unfold resolve_segment_decompression_params
  have hb : (g + 1 == num_anchors) = true := by simp [h]
  simp only [hb, if_true]

theorem resolve_num_runs_nonfinal (rsp anchors : Nat → Nat)
    (period num_anchors R total g : Nat) (h : g + 1 < num_anchors) :
    (resolve_segment_decompression_params rsp anchors period num_anchors R total
      g).num_runs =
      anchors (g + 1) +
        (if rsp (anchors (g + 1)) < g * period + period then 1 else 0) -
        anchors g := by
  unfold resolve_segment_decompression_params
  have hb : (g + 1 == num_anchors) = false := by
    simp only [beq_eq_false_iff_ne]; omega
  simp only [hb, Bool.false_eq_true, if_false]

/-- An abbreviation for the segment parameters block `g` computes when the kernel is
run on the encoder's tables. -/
def segParams (runs : List (Nat × Nat)) (period num_anchors g : Nat) :
    SegmentDecompressionParams :=
  resolve_segment_decompression_params (runStartAt runs) (anchorsOf runs period)
    period num_anchors runs.length (originalOf runs).length g

theorem resolve_cover_hyps (runs : List (Nat × Nat)) (period num_anchors g : Nat)
    (h1 : ∀ rv ∈ runs, 0 < rv.2) (hper : 0 < period)
    (hna : num_anchors = ((originalOf runs).length + period - 1) / period)
    (hg : g < num_anchors) :
    0 < (segParams runs period num_anchors g).num_runs ∧
    0 < (segParams runs period num_anchors g).decompressed_length ∧
    (segParams runs period num_anchors g).uncompressed_start_position +
        (segParams runs period num_anchors g).decompressed_length ≤
      (originalOf runs).length ∧
    (segParams runs period num_anchors g).first_run_index +
        (segParams runs period num_anchors g).num_runs ≤ runs.length ∧
    (∀ q, (segParams runs period num_anchors g).uncompressed_start_position ≤ q →
      (segParams runs period num_anchors g).first_run_index ≤
        coverIndex (runStartAt runs) runs.length q) ∧
    (∀ q, q < (segParams runs period num_anchors g).uncompressed_start_position +
        (segParams runs period num_anchors g).decompressed_length →
      coverIndex (runStartAt runs) runs.length q <
        (segParams runs period num_anchors g).first_run_index +
          (segParams runs period num_anchors g).num_runs) ∧
    runStartAt runs ((segParams runs period num_anchors g).first_run_index +
        (segParams runs period num_anchors g).num_runs - 1) <
      (segParams runs period num_anchors g).uncompressed_start_position +
        (segParams runs period num_anchors g).decompressed_length := by
  have htot := originalOf_length runs
  have htotpos : 0 < (originalOf runs).length := by
    by_contra h0
    have h00 : (originalOf runs).length = 0 := by omega
    have hz : (0 + period - 1) / period = 0 := Nat.div_eq_of_lt (by omega)
    rw [hna, h00, hz] at hg
    omega
  have hR : 0 < runs.length := by
    by_contra h0
    have hR0 : runs.length = 0 := by omega
    rw [hR0] at htot
    have h00 : runStartAt runs 0 = 0 := rfl
    omega
  have hmonoG : ∀ i j, i < j → j < runs.length →
      runStartAt runs i < runStartAt runs j :=
    fun i j hij hj => runStartAt_mono runs h1 i j hij (by omega)
  have hcovG : ∀ q, IsCover (runStartAt runs) runs.length
      (coverIndex (runStartAt runs) runs.length q) q :=
    fun q => coverIndex_isCover _ _ q hmonoG (Nat.zero_le q) hR
  have hcovmono : ∀ q q', q ≤ q' → coverIndex (runStartAt runs) runs.length q ≤
      coverIndex (runStartAt runs) runs.length q' :=
    fun q q' hqq => isCover_mono _ _ _ _ _ _ (hcovG q) (hcovG q') hqq
  have hstartlt : g * period < (originalOf runs).length := by
    rw [hna] at hg
    exact (lt_ceilDiv_iff _ _ g hper).mp hg
  have hstart : (segParams runs period num_anchors g).uncompressed_start_position =
      g * period := rfl
  have hfr : (segParams runs period num_anchors g).first_run_index =
      coverIndex (runStartAt runs) runs.length (g * period) := rfl
  have hfrlt : coverIndex (runStartAt runs) runs.length (g * period) <
      runs.length := (hcovG (g * period)).1
  have hfrle : ∀ q, g * period ≤ q →
      coverIndex (runStartAt runs) runs.length (g * period) ≤
        coverIndex (runStartAt runs) runs.length q :=
    fun q hq => hcovmono _ _ hq
  have hlen := resolve_len_eq (runStartAt runs) (anchorsOf runs period) period
    num_anchors runs.length (originalOf runs).length g
  have hlast_cov : ∀ j, j < runs.length →
      runStartAt runs j < (originalOf runs).length := by
    intro j hj
    have := runStartAt_mono runs h1 j runs.length hj (Nat.le_refl _)
    omega
  by_cases hfin : g + 1 = num_anchors
  · -- final segment
    have hnr := resolve_num_runs_final (runStartAt runs) (anchorsOf runs period)
      period num_anchors runs.length (originalOf runs).length g hfin
    have hlenv : (segParams runs period num_anchors g).decompressed_length =
        (originalOf runs).length - g * period := by
      rw [show (segParams runs period num_anchors g).decompressed_length =
        (resolve_segment_decompression_params (runStartAt runs)
          (anchorsOf runs period) period num_anchors runs.length
          (originalOf runs).length g).decompressed_length from rfl, hlen, if_pos hfin]
    have hnrv : (segParams runs period num_anchors g).num_runs =
        runs.length - coverIndex (runStartAt runs) runs.length (g * period) := hnr
    refine ⟨by rw [hnrv]; omega, by rw [hlenv]; omega, by rw [hstart, hlenv]; omega,
      by rw [hfr, hnrv]; omega, ?_, ?_, ?_⟩
    · intro q hq
      rw [hfr]
      exact hfrle q (by rw [hstart] at hq; exact hq)
    · intro q _
      rw [hfr, hnrv]
      have := (hcovG q).1
      omega
    · rw [hfr, hnrv, hstart, hlenv]
      have he : coverIndex (runStartAt runs) runs.length (g * period) +
          (runs.length - coverIndex (runStartAt runs) runs.length (g * period)) - 1 =
          runs.length - 1 := by omega
      rw [he]
      have := hlast_cov (runs.length - 1) (by omega)
      omega
  · -- non-final segment
    have hgf : g + 1 < num_anchors := by omega
    have hnr := resolve_num_runs_nonfinal (runStartAt runs) (anchorsOf runs period)
      period num_anchors runs.length (originalOf runs).length g hgf
    have hnexteq : (g + 1) * period = g * period + period := by ring
    have ha1 : anchorsOf runs period (g + 1) =
        coverIndex (runStartAt runs) runs.length (g * period + period) := by
      show coverIndex (runStartAt runs) runs.length ((g + 1) * period) = _
      rw [hnexteq]
    have hlenv : (segParams runs period num_anchors g).decompressed_length =
        period := by
      rw [show (segParams runs period num_anchors g).decompressed_length =
        (resolve_segment_decompression_params (runStartAt runs)
          (anchorsOf runs period) period num_anchors runs.length
          (originalOf runs).length g).decompressed_length from rfl, hlen, if_neg hfin]
    have hseg_end : g * period + period ≤ (originalOf runs).length := by
      rw [hna] at hgf
      have := (lt_ceilDiv_iff _ _ (g + 1) hper).mp hgf
      omega
    -- the cover of the next segment start
    have hfrlta1 : coverIndex (runStartAt runs) runs.length (g * period) ≤
        coverIndex (runStartAt runs) runs.length (g * period + period) :=
      hcovmono _ _ (by omega)
    have hcovq_lt : ∀ q, q < g * period + period →
        coverIndex (runStartAt runs) runs.length q <
          coverIndex (runStartAt runs) runs.length (g * period + period) +
            (if runStartAt runs (coverIndex (runStartAt runs) runs.length
              (g * period + period)) < g * period + period then 1 else 0) := by
      intro q hq
      by_cases hex : runStartAt runs (coverIndex (runStartAt runs) runs.length
          (g * period + period)) < g * period + period
      · rw [if_pos hex]
        have := hcovmono q (g * period + period) (by omega)
        omega
      · rw [if_neg hex]
        have hle := hcovmono q (g * period + period) (by omega)
        rcases Nat.eq_or_lt_of_le hle with he | hlt
        · -- the covers coincide, but then the boundary run starts above q, absurd
          have h2 := (hcovG q).2.1
          rw [he] at h2
          omega
        · exact hlt
    have hfr_lt_opl : coverIndex (runStartAt runs) runs.length (g * period) <
        coverIndex (runStartAt runs) runs.length (g * period + period) +
          (if runStartAt runs (coverIndex (runStartAt runs) runs.length
            (g * period + period)) < g * period + period then 1 else 0) :=
      hcovq_lt (g * period) (by omega)
    have hnrv : (segParams runs period num_anchors g).num_runs =
        coverIndex (runStartAt runs) runs.length (g * period + period) +
          (if runStartAt runs (coverIndex (runStartAt runs) runs.length
            (g * period + period)) < g * period + period then 1 else 0) -
          coverIndex (runStartAt runs) runs.length (g * period) := by
      show (resolve_segment_decompression_params (runStartAt runs)
        (anchorsOf runs period) period num_anchors runs.length
        (originalOf runs).length g).num_runs = _
      rw [hnr, ha1]
      rfl
    have hopl_le_R : coverIndex (runStartAt runs) runs.length (g * period + period) +
        (if runStartAt runs (coverIndex (runStartAt runs) runs.length
          (g * period + period)) < g * period + period then 1 else 0) ≤
        runs.length := by
      have := (hcovG (g * period + period)).1
      split_ifs <;> omega
    refine ⟨by rw [hnrv]; omega, by rw [hlenv]; omega, by rw [hstart, hlenv]; omega,
      by rw [hfr, hnrv]; omega, ?_, ?_, ?_⟩
    · intro q hq
      rw [hfr]
      exact hfrle q (by rw [hstart] at hq; exact hq)
    · intro q hq
      rw [hfr, hnrv, hstart, hlenv] at *
      have h2 := hcovq_lt q (by omega)
      omega
    · rw [hfr, hnrv, hstart, hlenv]
      by_cases hex : runStartAt runs (coverIndex (runStartAt runs) runs.length
          (g * period + period)) < g * period + period
      · rw [if_pos hex] at hfr_lt_opl ⊢
        have he : coverIndex (runStartAt runs) runs.length (g * period) +
            (coverIndex (runStartAt runs) runs.length (g * period + period) + 1 -
              coverIndex (runStartAt runs) runs.length (g * period)) - 1 =
            coverIndex (runStartAt runs) runs.length (g * period + period) := by
          omega
        rw [he]
        exact hex
      · rw [if_neg hex] at hfr_lt_opl ⊢
        have he : coverIndex (runStartAt runs) runs.length (g * period) +
            (coverIndex (runStartAt runs) runs.length (g * period + period) + 0 -
              coverIndex (runStartAt runs) runs.length (g * period)) - 1 =
            coverIndex (runStartAt runs) runs.length (g * period + period) - 1 := by
          omega
        rw [he]
        -- the boundary run starts exactly at the boundary, so its predecessor
        -- starts strictly inside the segment
        have hstarteq : runStartAt runs (coverIndex (runStartAt runs) runs.length
            (g * period + period)) = g * period + period := by
          have := (hcovG (g * period + period)).2.1
          omega
        have hprevlt : runStartAt runs (coverIndex (runStartAt runs) runs.length
            (g * period + period) - 1) <
            runStartAt runs (coverIndex (runStartAt runs) runs.length
              (g * period + period)) := by
          apply hmonoG
          · omega
          · exact (hcovG (g * period + period)).1
        omega

theorem local_cover_valid (rsp : Nat → Nat) (R fr nr start len : Nat)
    (hmonoG : ∀ i j, i < j → j < R → rsp i < rsp j)
    (hcovG : ∀ q, IsCover rsp R (coverIndex rsp R q) q)
    (hfrle : ∀ q, start ≤ q → fr ≤ coverIndex rsp R q)
    (hoplgt : ∀ q, q < start + len → coverIndex rsp R q < fr + nr)
    (holR : fr + nr ≤ R) (hnr : 0 < nr) (hlenpos : 0 < len)
    (hlaststart : rsp (fr + nr - 1) < start + len) :
    (∀ i j, i < j → j < nr → rsp (fr + i) < rsp (fr + j)) ∧
    (∀ q, start ≤ q → IsCover (fun i => rsp (fr + i)) nr
      (min (coverIndex rsp R q - fr) (nr - 1)) q) ∧
    (∀ q, start ≤ q → q < start + len →
      fr + min (coverIndex rsp R q - fr) (nr - 1) = coverIndex rsp R q) := by
  have hT3 : ∀ q, start ≤ q → q < start + len →
      fr + min (coverIndex rsp R q - fr) (nr - 1) = coverIndex rsp R q := by
    intro q hq hql
    have h1 := hfrle q hq
    have h2 := hoplgt q hql
    omega
  refine ⟨?_, ?_, hT3⟩
  · intro i j hij hj
    exact hmonoG (fr + i) (fr + j) (by omega) (by omega)
  · intro q hq
    by_cases hql : q < start + len
    · have heq := hT3 q hq hql
      have h1 := hfrle q hq
      have h2 := hoplgt q hql
      refine ⟨by omega, ?_, ?_⟩
      · show rsp (fr + min (coverIndex rsp R q - fr) (nr - 1)) ≤ q
        rw [heq]
        exact (hcovG q).2.1
      · intro i hi hiR
        show q < rsp (fr + i)
        exact (hcovG q).2.2 (fr + i) (by omega) (by omega)
    · push_neg at hql
      have hclast : fr + nr - 1 ≤ coverIndex rsp R q := by
        by_contra hlt
        push_neg at hlt
        have := (hcovG q).2.2 (fr + nr - 1) (by omega) (by omega)
        omega
      have hminv : min (coverIndex rsp R q - fr) (nr - 1) = nr - 1 := by omega
      rw [hminv]
      refine ⟨by omega, ?_, ?_⟩
      · show rsp (fr + (nr - 1)) ≤ q
        have he : fr + (nr - 1) = fr + nr - 1 := by omega
        rw [he]
        omega
      · intro i hi hiR
        show q < rsp (fr + i)
        omega

theorem blockWrites_values (runs : List (Nat × Nat)) (period num_anchors g B k : Nat)
    (h1 : ∀ rv ∈ runs, 0 < rv.2) (hper : 0 < period)
    (hna : num_anchors = ((originalOf runs).length + period - 1) / period)
    (hg : g < num_anchors) (hB32 : 32 ∣ B) (hB : 0 < B) (hk : k < 32) :
    ∀ pv ∈ blockWrites (runStartAt runs) (runValueAt runs) (anchorsOf runs period)
        period num_anchors runs.length (originalOf runs).length B (2 ^ k) g,
      pv.2 = runValueAt runs (coverIndex (runStartAt runs) runs.length pv.1) := by
  obtain ⟨hnr, hlenpos, hseg_le, hoplR, hfrle, hoplgt, hlast⟩ :=
    resolve_cover_hyps runs period num_anchors g h1 hper hna hg
  have hR : 0 < runs.length := by omega
  have hmonoG : ∀ i j, i < j → j < runs.length →
      runStartAt runs i < runStartAt runs j :=
    fun i j hij hj => runStartAt_mono runs h1 i j hij (by omega)
  have hcovG : ∀ q, IsCover (runStartAt runs) runs.length
      (coverIndex (runStartAt runs) runs.length q) q :=
    fun q => coverIndex_isCover _ _ q hmonoG (Nat.zero_le q) hR
  obtain ⟨hmonoL, hcovL, hT3⟩ := local_cover_valid (runStartAt runs) runs.length
    (segParams runs period num_anchors g).first_run_index
    (segParams runs period num_anchors g).num_runs
    (segParams runs period num_anchors g).uncompressed_start_position
    (segParams runs period num_anchors g).decompressed_length
    hmonoG hcovG hfrle hoplgt hoplR hnr hlenpos hlast
  have hepw : 0 < 2 ^ k := Nat.pos_pow_of_pos k (by omega)
  have hB32le : 32 ≤ B := Nat.le_of_dvd hB hB32
  have hdmlen := Nat.div_add_mod
    ((segParams runs period num_anchors g).decompressed_length) (2 ^ k)
  have hmodlen := Nat.mod_lt
    ((segParams runs period num_anchors g).decompressed_length) hepw
  intro pv hpv
  simp only [blockWrites] at hpv
  have hfold : resolve_segment_decompression_params (runStartAt runs)
      (anchorsOf runs period) period num_anchors runs.length
      (originalOf runs).length g = segParams runs period num_anchors g := rfl
  rw [hfold] at hpv
  rw [clear_lower_pow _ k hk] at hpv
  rw [List.mem_append] at hpv
  rcases hpv with hfull | hslack
  · -- a full-width packed write
    simp only [blockFullWrites, List.mem_flatMap, List.mem_range] at hfull
    obtain ⟨w, hw, r, _, lane, hlane, hmem⟩ := hfull
    simp only [threadRoundWrites] at hmem
    by_cases hact : posOf B (2 ^ k) (w * 32 + lane) r <
        2 ^ k * ((segParams runs period num_anchors g).decompressed_length / 2 ^ k)
    · rw [if_pos hact] at hmem
      simp only [List.mem_map, List.mem_range] at hmem
      obtain ⟨e, he, hpv⟩ := hmem
      have hfp_le : fpSeq (fun i => runStartAt runs
            ((segParams runs period num_anchors g).first_run_index + i))
            (fun i => runValueAt runs
              ((segParams runs period num_anchors g).first_run_index + i))
            (segParams runs period num_anchors g).num_runs B (2 ^ k)
            (segParams runs period num_anchors g).uncompressed_start_position
            (2 ^ k * ((segParams runs period num_anchors g).decompressed_length /
              2 ^ k)) w r ≤
          (fun q => min (coverIndex (runStartAt runs) runs.length q -
              (segParams runs period num_anchors g).first_run_index)
            ((segParams runs period num_anchors g).num_runs - 1))
            ((segParams runs period num_anchors g).uncompressed_start_position +
              posOf B (2 ^ k) (w * 32 + lane) r) := by
        apply fpSeq_le_cover _ _ _ _ _ _ _ _ _ hmonoL hcovL hB32le hepw
        have := posOf_mono_t B (2 ^ k) (w * 32) (w * 32 + lane) r (by omega)
        omega
      have hvals := writeElemsGo_eq
        (fun i => runStartAt runs
          ((segParams runs period num_anchors g).first_run_index + i))
        (fun i => runValueAt runs
          ((segParams runs period num_anchors g).first_run_index + i))
        (segParams runs period num_anchors g).num_runs
        (fun q => min (coverIndex (runStartAt runs) runs.length q -
            (segParams runs period num_anchors g).first_run_index)
          ((segParams runs period num_anchors g).num_runs - 1))
        hmonoL (2 ^ k)
        ((segParams runs period num_anchors g).uncompressed_start_position +
          posOf B (2 ^ k) (w * 32 + lane) r)
        (fpSeq (fun i => runStartAt runs
            ((segParams runs period num_anchors g).first_run_index + i))
          (fun i => runValueAt runs
            ((segParams runs period num_anchors g).first_run_index + i))
          (segParams runs period num_anchors g).num_runs B (2 ^ k)
          (segParams runs period num_anchors g).uncompressed_start_position
          (2 ^ k * ((segParams runs period num_anchors g).decompressed_length /
            2 ^ k)) w r + 1)
        hepw
        (fun e' _ => hcovL _ (by omega))
        (by omega)
      have hptrunc := posOf_add_epw_le B (2 ^ k) (w * 32 + lane) r
        (2 ^ k * ((segParams runs period num_anchors g).decompressed_length / 2 ^ k))
        ⟨_, rfl⟩ hact
      rw [← hpv]
      show (threadWrite _ _ _ _ _ _).1.getD e 0 = _
      unfold threadWrite
      rw [hvals]
      show ((List.range (2 ^ k)).map _).getD e 0 = _
      rw [getD_map_range _ _ _ _ he]
      show runValueAt runs ((segParams runs period num_anchors g).first_run_index +
        min (coverIndex (runStartAt runs) runs.length _ -
            (segParams runs period num_anchors g).first_run_index)
          ((segParams runs period num_anchors g).num_runs - 1)) = _
      rw [hT3 _ (by omega) (by omega)]
    · rw [if_neg hact] at hmem
      simp at hmem
  · -- a slack write
    simp only [blockSlackWrites] at hslack
    by_cases h1epw : 1 < 2 ^ k
    · rw [if_pos h1epw] at hslack
      by_cases hns : (segParams runs period num_anchors g).decompressed_length -
          2 ^ k * ((segParams runs period num_anchors g).decompressed_length /
            2 ^ k) = 0
      · rw [if_pos hns] at hslack
        simp at hslack
      · rw [if_neg hns] at hslack
        by_cases htr0 : 2 ^ k *
            ((segParams runs period num_anchors g).decompressed_length / 2 ^ k) = 0
        · rw [if_pos htr0] at hslack
          simp only [List.mem_map, List.mem_range] at hslack
          obtain ⟨j, hj, hpv⟩ := hslack
          have hcovj := hcovL
            ((segParams runs period num_anchors g).uncompressed_start_position + j)
            (by omega)
          have hsearch := runSearchFrom_cover
            (fun i => runStartAt runs
              ((segParams runs period num_anchors g).first_run_index + i))
            (segParams runs period num_anchors g).num_runs
            (min (coverIndex (runStartAt runs) runs.length
                ((segParams runs period num_anchors g).uncompressed_start_position
                  + j) -
                (segParams runs period num_anchors g).first_run_index)
              ((segParams runs period num_anchors g).num_runs - 1))
            ((segParams runs period num_anchors g).uncompressed_start_position + j)
            (0 + 1) hmonoL hcovj (by omega)
          rw [← hpv]
          show runValueAt runs
            ((segParams runs period num_anchors g).first_run_index +
              (runSearchFrom _ _ _ (0 + 1) - 1)) = _
          rw [hsearch, Nat.add_sub_cancel, hT3 _ (by omega) (by omega)]
        · rw [if_neg htr0] at hslack
          simp only [List.mem_flatMap, List.mem_range] at hslack
          obtain ⟨w, hw, hmemw⟩ := hslack
          rcases hfind : (List.range 32).find? (fun lane =>
              wroteLastPred B (2 ^ k)
                (2 ^ k * ((segParams runs period num_anchors g).decompressed_length
                  / 2 ^ k)) (w * 32 + lane)) with _ | lane0
          · rw [hfind] at hmemw
            simp at hmemw
          · rw [hfind] at hmemw
            simp only [List.mem_map, List.mem_range] at hmemw
            obtain ⟨j, hj, hpv⟩ := hmemw
            have hlane0 : lane0 < 32 := by
              have := List.mem_of_find?_eq_some hfind
              simpa using this
            have hfpS := laneFinalFp_le_cover
              (fun i => runStartAt runs
                ((segParams runs period num_anchors g).first_run_index + i))
              (fun i => runValueAt runs
                ((segParams runs period num_anchors g).first_run_index + i))
              (segParams runs period num_anchors g).num_runs B (2 ^ k)
              (segParams runs period num_anchors g).uncompressed_start_position
              (2 ^ k * ((segParams runs period num_anchors g).decompressed_length /
                2 ^ k))
              (segParams runs period num_anchors g).decompressed_length w lane0
              (fun q => min (coverIndex (runStartAt runs) runs.length q -
                  (segParams runs period num_anchors g).first_run_index)
                ((segParams runs period num_anchors g).num_runs - 1))
              hmonoL hcovL hB32le hepw hlane0 ⟨_, rfl⟩ (by omega) j
            have hcovj := hcovL
              ((segParams runs period num_anchors g).uncompressed_start_position +
                2 ^ k * ((segParams runs period num_anchors g).decompressed_length /
                  2 ^ k) + j)
              (by omega)
            have hsearch := runSearchFrom_cover
              (fun i => runStartAt runs
                ((segParams runs period num_anchors g).first_run_index + i))
              (segParams runs period num_anchors g).num_runs
              (min (coverIndex (runStartAt runs) runs.length
                  ((segParams runs period num_anchors g).uncompressed_start_position
                    + 2 ^ k *
                      ((segParams runs period num_anchors g).decompressed_length /
                        2 ^ k) + j) -
                  (segParams runs period num_anchors g).first_run_index)
                ((segParams runs period num_anchors g).num_runs - 1))
              ((segParams runs period num_anchors g).uncompressed_start_position +
                2 ^ k * ((segParams runs period num_anchors g).decompressed_length /
                  2 ^ k) + j)
              (laneFinalFp (fun i => runStartAt runs
                  ((segParams runs period num_anchors g).first_run_index + i))
                (fun i => runValueAt runs
                  ((segParams runs period num_anchors g).first_run_index + i))
                (segParams runs period num_anchors g).num_runs B (2 ^ k)
                (segParams runs period num_anchors g).uncompressed_start_position
                (2 ^ k * ((segParams runs period num_anchors g).decompressed_length
                  / 2 ^ k))
                (segParams runs period num_anchors g).decompressed_length w lane0
                + 1)
              hmonoL hcovj (by omega)
            rw [← hpv]
            show runValueAt runs
              ((segParams runs period num_anchors g).first_run_index +
                (runSearchFrom _ _ _ _ - 1)) = _
            rw [hsearch, Nat.add_sub_cancel, hT3 _ (by omega) (by omega)]
    · rw [if_neg h1epw] at hslack
      simp at hslack

theorem kernelWrites_values (runs : List (Nat × Nat)) (period B k : Nat)
    (h1 : ∀ rv ∈ runs, 0 < rv.2) (hper : 0 < period)
    (hB32 : 32 ∣ B) (hB : 0 < B) (hk : k < 32) :
    ∀ pv ∈ kernelWrites (runStartAt runs) (runValueAt runs) (anchorsOf runs period)
        period (((originalOf runs).length + period - 1) / period) runs.length
        (originalOf runs).length B (2 ^ k),
      pv.2 = runValueAt runs (coverIndex (runStartAt runs) runs.length pv.1) := by
  intro pv hpv
  unfold kernelWrites at hpv
  rw [List.mem_flatMap] at hpv
  obtain ⟨g, hg, hmem⟩ := hpv
  rw [List.mem_range] at hg
  exact blockWrites_values runs period _ g B k h1 hper rfl hg hB32 hB hk pv hmem

/-- C1: round trip.  Encode an array as RPE tables (run start positions, run data,
and position anchors at every `anchoring_period`-th element), then run the
`decompress` kernel grid (one block per anchored segment, block size `B` a positive
multiple of the warp size, `elements_per_thread_write = 2 ^ k`) over an output
buffer of the right length: the buffer afterwards equals the original array — every
position is written, and with the value of the run covering it. -/
theorem rpe_round_trip (runs : List (Nat × Nat)) (period B k : Nat) (buf : List Nat)
    (h1 : ∀ rv ∈ runs, 0 < rv.2) (hper : 0 < period)
    (hB32 : 32 ∣ B) (hB : 0 < B) (hk : k < 32)
    (hbuf : buf.length = (originalOf runs).length) :
    applyWrites (kernelWrites (runStartAt runs) (runValueAt runs)
        (anchorsOf runs period) period
        (((originalOf runs).length + period - 1) / period) runs.length
        (originalOf runs).length B (2 ^ k)) buf = originalOf runs := by
  apply List.ext_getElem?
  intro p
  by_cases hp : p < (originalOf runs).length
  · have hR : 0 < runs.length := by
      rcases runs with _ | ⟨rv, rest⟩
      · simp [originalOf] at hp
      · simp
    have hmonoG : ∀ i j, i < j → j < runs.length →
        runStartAt runs i < runStartAt runs j :=
      fun i j hij hj => runStartAt_mono runs h1 i j hij (by omega)
    have hcov := coverIndex_isCover (runStartAt runs) runs.length p hmonoG
      (Nat.zero_le p) hR
    have hcount := kernelWrites_count (runStartAt runs) (runValueAt runs)
      (anchorsOf runs period) period runs.length (originalOf runs).length B k p
      hper hB32 hB hk
    rw [if_pos hp] at hcount
    have hmem1 : p ∈ (kernelWrites (runStartAt runs) (runValueAt runs)
        (anchorsOf runs period) period
        (((originalOf runs).length + period - 1) / period) runs.length
        (originalOf runs).length B (2 ^ k)).map Prod.fst :=
      List.count_pos_iff.mp (by rw [hcount]; omega)
    rw [applyWrites_getElem?_of_mem _
      (fun q => runValueAt runs (coverIndex (runStartAt runs) runs.length q)) buf p
      hmem1 (by omega)
      (kernelWrites_values runs period B k h1 hper hB32 hB hk)]
    rw [originalOf_getElem? runs h1 p _ hp hcov]
  · have hlen1 : (applyWrites (kernelWrites (runStartAt runs) (runValueAt runs)
        (anchorsOf runs period) period
        (((originalOf runs).length + period - 1) / period) runs.length
        (originalOf runs).length B (2 ^ k)) buf).length ≤ p := by
      rw [applyWrites_length, hbuf]; omega
    rw [List.getElem?_eq_none hlen1, List.getElem?_eq_none (by omega)]

/-- Witness for `rpe_round_trip`: the two-run array 7,7,7,4,4 with anchoring period
2, block size 32 and two elements per thread write decompresses to itself. -/
theorem rpe_round_trip_witness :
    applyWrites (kernelWrites (runStartAt [(7, 3), (4, 2)])
        (runValueAt [(7, 3), (4, 2)]) (anchorsOf [(7, 3), (4, 2)] 2) 2
        (((originalOf [(7, 3), (4, 2)]).length + 2 - 1) / 2)
        ([(7, 3), (4, 2)] : List (Nat × Nat)).length
        (originalOf [(7, 3), (4, 2)]).length 32 (2 ^ 1)) (List.replicate 5 0) =
      originalOf [(7, 3), (4, 2)] :=
  rpe_round_trip [(7, 3), (4, 2)] 2 32 1 (List.replicate 5 0)
    (by decide) (by decide) (by decide) (by decide) (by decide) (by decide)

end Giddy
